import Mathlib

/-!
Circuit-Sim: fixed-step ODE integrators.

Shallow embedding of the four C programs of the repository

* `Circuit-Sim/euler-approx/trapezoidal.c`  (namespace `Trapezoidal`)
* `euler-approx/forwardEuler.c`             (namespace `ScalarForwardEuler`)
* `transient-analysis/forwardEuler.c`       (namespace `CircuitForwardEuler`)
* `transient-analysis/backwardEuler.c`      (namespace `BackwardEuler`)

A C `double` is read as an element of an arbitrary linearly ordered field `α`
(exact arithmetic: `ℚ` for evaluation, `ℝ` for analysis); rounding, infinities
and NaN are not represented.  The C code can divide by zero in two places only:
in `fn_invert_2x2` on a singular matrix, and in the Newton update when
`reallySmall ≤ 0` lets a zero derivative through.  There the embedding's quotient
is the field's `x / 0 = 0` where C has an infinity or NaN; the round-trip theorem
assumes a non-zero determinant.  `exit (1)` is an `Except.error`; library
functions (`sin`, `acos`) are parameters.

The `do`-`while` loops of the four `main` functions run on a budget of passes
(`fuel`); the theorems on termination show which budgets let a run finish.  A
driver state carries the records written to the plot file so far; the progress
lines on standard output are not modelled.  The drivers take the step, the
horizon and the initial state as parameters.

Where the number of passes at the constants of the source is at stake, exact
arithmetic is not the program: `0.01` is not a binary64 number and the sums
`t_n += h` are rounded.  There the time counter is modelled in binary64
(namespace `Binary64`: integers scaled by a power of two, sums rounded to 53
significant bits, ties to even).
-/

/-- Fatal conditions of a run.  `degenerateDerivative` and `nonConvergence` are
the two `exit (1)` sites of `fn_newtonRaphson`; `singularSystem` is the error the
specification names for the matrix inversion. -/
inductive SimError where
  | degenerateDerivative
  | nonConvergence
  | singularSystem
  deriving DecidableEq, Repr

namespace Trapezoidal

variable {α : Type} [LinearOrderedField α]

/-- Source function `fn_df` (trapezoidal.c:23-32):
`t_nn_sq = t_nn * t_nn; df = 10.0 * h * t_nn_sq * x_nn; df = df - 2.0`. -/
def fn_df (h t_nn x_nn : α) : α :=
  let t_nn_sq := t_nn * t_nn
  let df := 10 * h * t_nn_sq * x_nn
  let df := df - 2
  df

/-- Source function `fn_f` (trapezoidal.c:34-52). -/
def fn_f (h t_n t_nn x_n x_nn : α) : α :=
  let t_n_sq := t_n * t_n
  let x_n_sq := x_n * x_n
  let t_nn_sq := t_nn * t_nn
  let x_nn_sq := x_nn * x_nn
  let f := 5 * h * t_nn_sq * x_nn_sq
  let f := f - (2 * x_nn)
  let f := f + (5 * h * t_n_sq * x_n_sq) + (2 * x_n)
  f

/-- Local variables of `fn_newtonRaphson` that are live across loop iterations:
the loop counter `i`, the current iterate `x_nn` and the last residual `f`. -/
structure NRState (α : Type) where
  i : Nat
  x_nn : α
  f : α
  deriving DecidableEq, Repr

/-- The `for (i = 0; i < iter; i++)` loop of `fn_newtonRaphson`
(trapezoidal.c:69-93).  The first argument is the number of iterations the loop
condition still admits (`iter - i`); `break` leaves the loop with the current
state, the `df too small` branch is `exit (1)`. -/
def nr_loop (h t_n t_nn x_n tolerance reallySmall : α) :
    Nat → NRState α → Except SimError (NRState α)
  | 0, s => .ok s
  | n + 1, s =>
    let f := fn_f h t_n t_nn x_n s.x_nn
    if |f| ≤ tolerance then
      .ok { s with f := f }
    else
      let df := fn_df h t_nn s.x_nn
      if |df| < reallySmall then
        .error SimError.degenerateDerivative
      else
        nr_loop h t_n t_nn x_n tolerance reallySmall n
          { i := s.i + 1, x_nn := s.x_nn - f / df, f := f }

/-- Source function `fn_newtonRaphson` (trapezoidal.c:54-105).  `f0` is the
indeterminate content of the uninitialised local `f`; it is read only when the
loop body never runs (`iter ≤ 0`). -/
def fn_newtonRaphson (h t_n x_n : α) (iter : Int) (tolerance reallySmall : α)
    (f0 : α) : Except SimError α :=
  let t_nn := t_n + h
  let x_nn := x_n
  match nr_loop h t_n t_nn x_n tolerance reallySmall iter.toNat
      { i := 0, x_nn := x_nn, f := f0 } with
  | .error e => .error e
  | .ok s =>
    if |s.f| ≤ tolerance then
      .ok s.x_nn
    else
      .error SimError.nonConvergence

/-- Newton iterates named by the specification: `x^(0) = x_n`,
`x^(k+1) = x^(k) - f(x^(k)) / df(x^(k))`, with `t_nn = t_n + h`. -/
def newtonIterate (h t_n x_n : α) : Nat → α
  | 0 => x_n
  | k + 1 =>
    let x := newtonIterate h t_n x_n k
    x - fn_f h t_n (t_n + h) x_n x / fn_df h (t_n + h) x

/-- Loop invariant of `nr_loop`: a residual within tolerance held in `f` is the residual of
the iterate held in `x_nn`. -/
def Fresh (h t_n t_nn x_n tolerance : α) (s : NRState α) : Prop :=
  |s.f| ≤ tolerance → s.f = fn_f h t_n t_nn x_n s.x_nn

end Trapezoidal

namespace ScalarForwardEuler

variable {α : Type} [LinearOrderedField α]

/-- Source function `df` (euler-approx/forwardEuler.c:11-13):
`return (5 * t * t * x * x)`. -/
def df (t x : α) : α :=
  5 * t * t * x * x

/-- Variables of `main` that change in the loop, with the records written to
`fPlot` so far. -/
structure State (α : Type) where
  t_n : α
  x_n : α
  out : List (α × α)
  deriving DecidableEq, Repr

/-- Body of the `do { ... } while (t_n < t_f)` loop
(euler-approx/forwardEuler.c:28-32): write the record, `x_n += df (t_n, x_n) * h`,
then `t_n += h`. -/
def loop_body (h : α) (s : State α) : State α :=
  let out := s.out ++ [(s.t_n, s.x_n)]
  let x_n := s.x_n + (df s.t_n s.x_n * h)
  let t_n := s.t_n + h
  { t_n := t_n, x_n := x_n, out := out }

end ScalarForwardEuler

namespace CircuitForwardEuler

variable {α : Type} [LinearOrderedField α]

/-- Source function `fn_df_v1` (transient-analysis/forwardEuler.c:19-30):
`df_v1 = 1.0/c1; df_v1 = df_v1 * (((vs - v1)/r1) - ((v2 - v1)/r2))`. -/
def fn_df_v1 (vs v1 v2 c1 r1 r2 : α) : α :=
  let df_v1 := 1 / c1
  let df_v1 := df_v1 * (((vs - v1) / r1) - ((v2 - v1) / r2))
  df_v1

/-- Source function `fn_df_v2` (transient-analysis/forwardEuler.c:32-41):
`df_v2 = -1.0/c2; df_v2 = df_v2 * ((v2 - v1)/r2)`. -/
def fn_df_v2 (v1 v2 c2 r2 : α) : α :=
  let df_v2 := -1 / c2
  let df_v2 := df_v2 * ((v2 - v1) / r2)
  df_v2

/-- Variables of `main` that change in the loop, with the records written to
`fPlot` so far.  The progress lines on standard output are not modelled. -/
structure State (α : Type) where
  t_n : α
  v1_n : α
  v2_n : α
  v1_nn : α
  v2_nn : α
  vs_n : α
  iter : Int
  out : List (α × α × α)

/-- Body of the `do { ... } while (t_n < t_end)` loop
(transient-analysis/forwardEuler.c:75-88).  The library function `sin` and the
constants of `main` are parameters. -/
def loop_body (sin : α → α) (c1 c2 r1 r2 vm omega h : α) (s : State α) : State α :=
  let vs_n := vm * sin (omega * s.t_n)
  let out := s.out ++ [(s.t_n, s.v1_n, s.v2_n)]
  let v1_nn := (h * fn_df_v1 vs_n s.v1_n s.v2_n c1 r1 r2) + s.v1_n
  let v2_nn := (h * fn_df_v2 s.v1_n s.v2_n c2 r2) + s.v2_n
  let t_n := s.t_n + h
  let v1_n := v1_nn
  let v2_n := v2_nn
  let iter := s.iter + 1
  { t_n := t_n, v1_n := v1_n, v2_n := v2_n, v1_nn := v1_nn, v2_nn := v2_nn,
    vs_n := vs_n, iter := iter, out := out }

end CircuitForwardEuler

namespace BackwardEuler

variable {α : Type} [LinearOrderedField α]

/-- A loop `for (k = 0; k < 2; k++) body`, unrolled: the body runs for `k = 0`
and then for `k = 1`. -/
def for2 {σ : Type} (body : Fin 2 → σ → σ) (s : σ) : σ :=
  body 1 (body 0 s)

/-- Offset `(r*2)+c` of entry `[r][c]` in a packed 2x2 matrix. -/
def idx (r c : Fin 2) : Fin 4 :=
  ⟨r.val * 2 + c.val, by omega⟩

/-- Assignment `m [r][c] = v` to a local `double m [2][2]`. -/
def set2 (m : Fin 2 → Fin 2 → α) (r c : Fin 2) (v : α) : Fin 2 → Fin 2 → α :=
  Function.update m r (Function.update (m r) c v)

/-- The "Unpacking a matrix" loops shared by `fn_invert_2x2` and
`fn_multiply_2x1`: `iMatrix [r][c] = i[(r*2)+c]`.  The local array is
uninitialised in C and every entry is written here before it is read; it starts
as the zero array. -/
def unpack (i : Fin 4 → α) : Fin 2 → Fin 2 → α :=
  for2 (fun r m => for2 (fun c m => set2 m r c (i (idx r c))) m) (fun _ _ => 0)

/-- Source function `fn_invert_2x2` (backwardEuler.c:18-46).  `o` is the
caller's output buffer, returned with its new contents. -/
def fn_invert_2x2 (i o : Fin 4 → α) : Fin 4 → α :=
  let iMatrix := unpack i
  let determinant := iMatrix 0 0 * iMatrix 1 1
  let determinant := determinant - (iMatrix 0 1 * iMatrix 1 0)
  let oMatrix : Fin 2 → Fin 2 → α := fun _ _ => 0
  let oMatrix := set2 oMatrix 0 0 (iMatrix 1 1 / determinant)
  let oMatrix := set2 oMatrix 0 1 ((-1 * iMatrix 0 1) / determinant)
  let oMatrix := set2 oMatrix 1 0 ((-1 * iMatrix 1 0) / determinant)
  let oMatrix := set2 oMatrix 1 1 (iMatrix 0 0 / determinant)
  for2 (fun r o => for2 (fun c o => Function.update o (idx r c) (oMatrix r c)) o) o

/-- Outcome of a call of `fn_invert_2x2`: the function is `void`, its body
(backwardEuler.c:18-46) has no `exit`, no status value and no test of
`determinant`, so the call returns normally on every input. -/
def fn_invert_2x2_call (i o : Fin 4 → α) : Except SimError (Fin 4 → α) :=
  .ok (fn_invert_2x2 i o)

/-- Source function `fn_multiply_2x1` (backwardEuler.c:49-71).  `kVec` is the
caller's output buffer, returned with its new contents. -/
def fn_multiply_2x1 (i : Fin 4 → α) (jVec kVec : Fin 2 → α) : Fin 2 → α :=
  let iMatrix := unpack i
  for2 (fun r kVec => for2 (fun c kVec =>
      if c = 0 then
        Function.update kVec r (iMatrix r c * jVec c)
      else
        Function.update kVec r (kVec r + iMatrix r c * jVec c)) kVec) kVec

/-- Determinant `a00*a11 - a01*a10` of a packed 2x2 matrix. -/
def det (m : Fin 4 → α) : α :=
  m 0 * m 3 - m 1 * m 2

end BackwardEuler

/-- The loop `do { body } while (cond)`, run for at most `fuel` passes: the body
runs, then the condition is tested on the new state.  `none` means the budget
ended with the condition still true. -/
def do_while {σ : Type} (body : σ → σ) (cond : σ → Bool) : Nat → σ → Option σ
  | 0, _ => none
  | fuel + 1, s =>
    let s1 := body s
    if cond s1 then do_while body cond fuel s1 else some s1

namespace ScalarForwardEuler

variable {α : Type} [LinearOrderedField α]

/-- The loop of `main` (euler-approx/forwardEuler.c:28-32) for arbitrary step,
horizon and initial state; the program writes nothing after the loop. -/
def run (h t_f : α) (fuel : Nat) (s : State α) : Option (State α) :=
  do_while (loop_body h) (fun s => decide (s.t_n < t_f)) fuel s

end ScalarForwardEuler

namespace Binary64

/-- The least `k` (searched upwards from the third argument, at most `fuel`
steps) with `n / 2 ^ k < 2 ^ 53`: the number of low bits that do not fit in the
53-bit significand of a binary64 number. -/
def shift (n : Nat) : Nat → Nat → Nat
  | 0, k => k
  | fuel + 1, k => if n / 2 ^ k < 2 ^ 53 then k else shift n fuel (k + 1)

/-- Rounding of a non-negative number, held as an integer multiple `n` of a fixed
power of two, to 53 significant bits, to nearest with ties to even: the rounding
of IEEE binary64 arithmetic in its default mode, for results in the normal
range. -/
def round (n : Nat) : Nat :=
  let k := shift n 2048 0
  let q := n / 2 ^ k
  let r := n % 2 ^ k
  if 2 * r < 2 ^ k then q * 2 ^ k
  else if 2 ^ k < 2 * r then (q + 1) * 2 ^ k
  else if q % 2 = 0 then q * 2 ^ k
  else (q + 1) * 2 ^ k

/-- The binary64 sum of two non-negative numbers held as multiples of the same
power of two: the exact sum, rounded. -/
def add (a b : Nat) : Nat :=
  round (a + b)

end Binary64

namespace ScalarForwardEuler

/-- The part of the state of `main` (euler-approx/forwardEuler.c:15-37) that its
control flow depends on, as the program computes it in binary64: the time `t_n`,
held as the integer `t_n * 2 ^ 59` (every value `t_n` takes is a multiple of
`2 ^ (-59)`), and the number of records written to `fPlot`. -/
structure Clock where
  t_n : Nat
  records : Nat
  deriving DecidableEq, Repr

/-- The `double` nearest to the literal `0.01`, bit pattern `0x3F847AE147AE147B`,
as a multiple of `2 ^ (-59)`. -/
def h_binary64 : Nat :=
  5764607523034235

/-- The loop of `main` (euler-approx/forwardEuler.c:28-32) on the clock, with the
constants of the source `h = 0.01`, `t_n = 0.0`, `t_f = 5.0`: each pass writes
one record and performs `t_n += h` in binary64; the loop repeats while
`t_n < t_f`.  The values `x_n` do not enter the loop condition. -/
def main_clock (fuel : Nat) : Option Clock :=
  do_while
    (fun c => { t_n := Binary64.add c.t_n h_binary64, records := c.records + 1 })
    (fun c => decide (c.t_n < 5 * 2 ^ 59)) fuel { t_n := 0, records := 0 }

end ScalarForwardEuler

namespace Trapezoidal

variable {α : Type} [LinearOrderedField α]

/-- Variables of `main` that change in the loop, with the records written to
`fPlot` so far.  The progress lines on standard output are not modelled. -/
structure State (α : Type) where
  t_n : α
  x_n : α
  iteration : Int
  out : List (α × α)
  deriving DecidableEq, Repr

/-- How the program ends: `return 0` after the loop (`status = 0`) or `exit (1)`
inside `fn_newtonRaphson` (`status = 1`, with the error met); `out` is the
content of `fPlot`, which `exit` flushes. -/
structure Result (α : Type) where
  status : Int
  error : Option SimError
  out : List (α × α)
  deriving DecidableEq, Repr

/-- The `do { ... } while (t_n < t_f)` loop of `main` (trapezoidal.c:124-136)
for arbitrary step, horizon, Newton settings and initial state, run for at most
`fuel` passes.  `f0` is the indeterminate initial content of the local `f` of
`fn_newtonRaphson`. -/
def main_loop (h t_f : α) (iter : Int) (tolerance reallySmall f0 : α) :
    Nat → State α → Option (Result α)
  | 0, _ => none
  | fuel + 1, s =>
    let out := s.out ++ [(s.t_n, s.x_n)]
    match fn_newtonRaphson h s.t_n s.x_n iter tolerance reallySmall f0 with
    | .error e => some { status := 1, error := some e, out := out }
    | .ok x_nn =>
      let t_n := s.t_n + h
      let x_n := x_nn
      let iteration := s.iteration + 1
      if t_n < t_f then
        main_loop h t_f iter tolerance reallySmall f0 fuel
          { t_n := t_n, x_n := x_n, iteration := iteration, out := out }
      else
        some { status := 0, error := none, out := out }

end Trapezoidal

namespace CircuitForwardEuler

variable {α : Type} [LinearOrderedField α]

/-- Initial values of the variables of `main`
(transient-analysis/forwardEuler.c:59-66), before any record is written. -/
def init : State α :=
  { t_n := 0, v1_n := 0, v2_n := 0, v1_nn := 0, v2_nn := 0, vs_n := 0, iter := 0,
    out := [] }

/-- The loop of `main` and the trailing record written after it
(transient-analysis/forwardEuler.c:75-92), for arbitrary constants, horizon and
initial state. -/
def run (sin : α → α) (c1 c2 r1 r2 vm omega h t_end : α) (fuel : Nat) (s : State α) :
    Option (State α) :=
  match do_while (loop_body sin c1 c2 r1 r2 vm omega h)
      (fun s => decide (s.t_n < t_end)) fuel s with
  | none => none
  | some s => some { s with out := s.out ++ [(s.t_n, s.v1_n, s.v2_n)] }

end CircuitForwardEuler

namespace BackwardEuler

variable {α : Type} [LinearOrderedField α]

/-- Variables and buffers of `main` that change in the loop, with the records
written to `fPlot` so far.  The progress lines on standard output are not
modelled. -/
structure State (α : Type) where
  t_n : α
  v1_n : α
  v2_n : α
  vs_nn : α
  A : Fin 2 → Fin 2 → α
  b : Fin 2 → α
  a_vec : Fin 4 → α
  t_vec : Fin 4 → α
  o_vec : Fin 2 → α
  iter : Int
  out : List (α × α × α)

/-- Body of the `do { ... } while (t_n < t_end)` loop (backwardEuler.c:119-150).
The library function `sin` and the loop-invariant variables of `main` are
parameters. -/
def loop_body (sin : α → α) (c1 c2 g1 g2 vm omega h : α) (s : State α) : State α :=
  let vs_nn := vm * sin (omega * (s.t_n + h))
  let out := s.out ++ [(s.t_n, s.v1_n, s.v2_n)]
  let A := set2 s.A 0 0 (1 + ((h / c1) * (g1 + g2)))
  let A := set2 A 0 1 (-(h / c1) * g2)
  let A := set2 A 1 0 (-(h / c2) * g2)
  let A := set2 A 1 1 (1 + ((h / c2) * g2))
  let a_vec := for2 (fun r a => for2 (fun c a => Function.update a (idx r c) (A r c)) a) s.a_vec
  let b := Function.update s.b 0 (s.v1_n + ((h / c1) * g1 * vs_nn))
  let b := Function.update b 1 s.v2_n
  let t_vec := fn_invert_2x2 a_vec s.t_vec
  let o_vec := fn_multiply_2x1 t_vec b s.o_vec
  let t_n := s.t_n + h
  let v1_n := o_vec 0
  let v2_n := o_vec 1
  let iter := s.iter + 1
  { t_n := t_n, v1_n := v1_n, v2_n := v2_n, vs_nn := vs_nn, A := A, b := b,
    a_vec := a_vec, t_vec := t_vec, o_vec := o_vec, iter := iter, out := out }

/-- Initial values of the variables of `main` (backwardEuler.c:90-105), before
any record is written.  The local arrays and the `malloc` buffers are
uninitialised in C and every entry is written in the loop before it is read;
they start as zero arrays. -/
def init : State α :=
  { t_n := 0, v1_n := 0, v2_n := 0, vs_nn := 0, A := fun _ _ => 0, b := fun _ => 0,
    a_vec := fun _ => 0, t_vec := fun _ => 0, o_vec := fun _ => 0, iter := 0,
    out := [] }

/-- The loop of `main` and the trailing record written after it
(backwardEuler.c:119-154), for arbitrary constants, horizon and initial state. -/
def run (sin : α → α) (c1 c2 g1 g2 vm omega h t_end : α) (fuel : Nat) (s : State α) :
    Option (State α) :=
  match do_while (loop_body sin c1 c2 g1 g2 vm omega h)
      (fun s => decide (s.t_n < t_end)) fuel s with
  | none => none
  | some s => some { s with out := s.out ++ [(s.t_n, s.v1_n, s.v2_n)] }

end BackwardEuler

namespace Trapezoidal

variable {α : Type} [LinearOrderedField α]

/-- One pass through the loop body that neither breaks nor aborts advances the
counter, takes the Newton step and keeps the residual just computed. -/
lemma nr_loop_step (h t_n t_nn x_n tolerance reallySmall : α) (n : Nat) (s : NRState α)
    (hf : tolerance < |fn_f h t_n t_nn x_n s.x_nn|)
    (hd : ¬ |fn_df h t_nn s.x_nn| < reallySmall) :
    nr_loop h t_n t_nn x_n tolerance reallySmall (n + 1) s
      = nr_loop h t_n t_nn x_n tolerance reallySmall n
          { i := s.i + 1
            x_nn := s.x_nn - fn_f h t_n t_nn x_n s.x_nn / fn_df h t_nn s.x_nn
            f := fn_f h t_n t_nn x_n s.x_nn } := by
  simp only [nr_loop, not_le.mpr hf, hd, if_false]

/-- A pass that finds the residual within tolerance leaves the loop by `break`. -/
lemma nr_loop_break (h t_n t_nn x_n tolerance reallySmall : α) (n : Nat) (s : NRState α)
    (hf : |fn_f h t_n t_nn x_n s.x_nn| ≤ tolerance) :
    nr_loop h t_n t_nn x_n tolerance reallySmall (n + 1) s
      = .ok { s with f := fn_f h t_n t_nn x_n s.x_nn } := by
  simp only [nr_loop, hf, if_true]

/-- A pass that finds the residual out of tolerance and the derivative too small
aborts. -/
lemma nr_loop_abort (h t_n t_nn x_n tolerance reallySmall : α) (n : Nat) (s : NRState α)
    (hf : tolerance < |fn_f h t_n t_nn x_n s.x_nn|)
    (hd : |fn_df h t_nn s.x_nn| < reallySmall) :
    nr_loop h t_n t_nn x_n tolerance reallySmall (n + 1) s
      = .error SimError.degenerateDerivative := by
  simp only [nr_loop, not_le.mpr hf, hd, if_false, if_true]

lemma nr_loop_fresh (h t_n t_nn x_n tolerance reallySmall : α) :
    ∀ (n : Nat) (s r : NRState α), Fresh h t_n t_nn x_n tolerance s →
      nr_loop h t_n t_nn x_n tolerance reallySmall n s = .ok r →
      Fresh h t_n t_nn x_n tolerance r := by
  intro n
  induction n with
  | zero =>
    intro s r hs hr
    simp only [nr_loop, Except.ok.injEq] at hr
    exact hr ▸ hs
  | succ n ih =>
    intro s r _ hr
    by_cases hf : |fn_f h t_n t_nn x_n s.x_nn| ≤ tolerance
    · rw [nr_loop_break h t_n t_nn x_n tolerance reallySmall n s hf] at hr
      simp only [Except.ok.injEq] at hr
      subst hr
      intro _
      rfl
    · have hf2 : tolerance < |fn_f h t_n t_nn x_n s.x_nn| := not_le.mp hf
      by_cases hd : |fn_df h t_nn s.x_nn| < reallySmall
      · rw [nr_loop_abort h t_n t_nn x_n tolerance reallySmall n s hf2 hd] at hr
        cases hr
      · rw [nr_loop_step h t_n t_nn x_n tolerance reallySmall n s hf2 hd] at hr
        refine ih _ r ?_ hr
        intro hle
        exact absurd hle hf

/-- When the loop body runs at least once, the state the loop hands to the final
test satisfies the invariant whatever `f` held before. -/
lemma nr_loop_succ_fresh (h t_n t_nn x_n tolerance reallySmall : α) (n : Nat)
    (s r : NRState α)
    (hr : nr_loop h t_n t_nn x_n tolerance reallySmall (n + 1) s = .ok r) :
    Fresh h t_n t_nn x_n tolerance r := by
  by_cases hf : |fn_f h t_n t_nn x_n s.x_nn| ≤ tolerance
  · rw [nr_loop_break h t_n t_nn x_n tolerance reallySmall n s hf] at hr
    simp only [Except.ok.injEq] at hr
    subst hr
    intro _
    rfl
  · have hf2 : tolerance < |fn_f h t_n t_nn x_n s.x_nn| := not_le.mp hf
    by_cases hd : |fn_df h t_nn s.x_nn| < reallySmall
    · rw [nr_loop_abort h t_n t_nn x_n tolerance reallySmall n s hf2 hd] at hr
      cases hr
    · rw [nr_loop_step h t_n t_nn x_n tolerance reallySmall n s hf2 hd] at hr
      refine nr_loop_fresh h t_n t_nn x_n tolerance reallySmall n _ r ?_ hr
      intro hle
      exact absurd hle hf

/-- An iteration bound of at least one admits a first pass. -/
lemma toNat_succ_of_one_le (iter : Int) (hiter : 1 ≤ iter) :
    ∃ n : Nat, iter.toNat = n + 1 ∧ iter = ((n + 1 : Nat) : Int) := by
  refine ⟨iter.toNat - 1, ?_, ?_⟩ <;> omega

/-- C1: for `iter ≥ 1`, a value returned by `fn_newtonRaphson` has its own
residual within tolerance: `|fn_f (h, t_n, t_n + h, x_n, x_nn)| ≤ tolerance`. -/
theorem fn_newtonRaphson_returns_converged (h t_n x_n tolerance reallySmall f0 : α)
    (iter : Int) (hiter : 1 ≤ iter) (x_nn : α)
    (hret : fn_newtonRaphson h t_n x_n iter tolerance reallySmall f0 = .ok x_nn) :
    |fn_f h t_n (t_n + h) x_n x_nn| ≤ tolerance := by
  obtain ⟨n, hn, -⟩ := toNat_succ_of_one_le iter hiter
  simp only [fn_newtonRaphson, hn] at hret
  cases hloop : nr_loop h t_n (t_n + h) x_n tolerance reallySmall (n + 1)
      { i := 0, x_nn := x_n, f := f0 } with
  | error e =>
    rw [hloop] at hret
    cases hret
  | ok r =>
    rw [hloop] at hret
    simp only at hret
    have hfresh := nr_loop_succ_fresh h t_n (t_n + h) x_n tolerance reallySmall n _ r hloop
    by_cases hle : |r.f| ≤ tolerance
    · rw [if_pos hle] at hret
      simp only [Except.ok.injEq] at hret
      rw [← hret, ← hfresh hle]
      exact hle
    · rw [if_neg hle] at hret
      cases hret

end Trapezoidal

namespace Trapezoidal

variable {α : Type} [LinearOrderedField α]

/-- C3: `fn_f` is twice the trapezoidal right-hand side minus `x_nn`, hence it
vanishes exactly when `x_nn = x_n + (h/2) (5 t_n² x_n² + 5 t_nn² x_nn²)`. -/
theorem fn_f_trapezoidal_residual (h t_n t_nn x_n x_nn : α) :
    fn_f h t_n t_nn x_n x_nn
        = 2 * ((x_n + (h / 2) * (5 * t_n ^ 2 * x_n ^ 2 + 5 * t_nn ^ 2 * x_nn ^ 2)) - x_nn)
    ∧ (fn_f h t_n t_nn x_n x_nn = 0
        ↔ x_nn = x_n + (h / 2) * (5 * t_n ^ 2 * x_n ^ 2 + 5 * t_nn ^ 2 * x_nn ^ 2)) := by
  have key : fn_f h t_n t_nn x_n x_nn
      = 2 * ((x_n + (h / 2) * (5 * t_n ^ 2 * x_n ^ 2 + 5 * t_nn ^ 2 * x_nn ^ 2)) - x_nn) := by
    simp only [fn_f]
    ring
  refine ⟨key, ?_⟩
  rw [key]
  constructor
  · intro h0
    have h2 : (2 : α) ≠ 0 := two_ne_zero
    have := (mul_eq_zero.mp h0).resolve_left h2
    exact (sub_eq_zero.mp this).symm
  · intro hx
    rw [← hx]
    ring

/-- C2: over the reals `fn_df h t_nn` is the derivative of
`x_nn ↦ fn_f h t_n t_nn x_n x_nn` at every point. -/
theorem fn_df_is_derivative_of_fn_f (h t_n t_nn x_n x_nn : ℝ) :
    HasDerivAt (fun x => fn_f h t_n t_nn x_n x) (fn_df h t_nn x_nn) x_nn := by
  have hfun : (fun x : ℝ => fn_f h t_n t_nn x_n x)
      = fun x => 5 * h * (t_nn * t_nn) * (x * x) - 2 * x
          + (5 * h * (t_n * t_n) * (x_n * x_n) + 2 * x_n) := by
    funext x
    simp only [fn_f]
    ring
  rw [hfun]
  have hid : HasDerivAt (fun x : ℝ => x) 1 x_nn := hasDerivAt_id x_nn
  have hsq : HasDerivAt (fun x : ℝ => x * x) (1 * x_nn + x_nn * 1) x_nn := hid.mul hid
  have h1 := hsq.const_mul (5 * h * (t_nn * t_nn))
  have h2 := hid.const_mul (2 : ℝ)
  have h3 := (h1.sub h2).add_const (5 * h * (t_n * t_n) * (x_n * x_n) + 2 * x_n)
  convert h3 using 1
  simp only [fn_df]
  ring

end Trapezoidal

namespace Trapezoidal

variable {α : Type} [LinearOrderedField α]

/-- While every residual is out of tolerance and no derivative is too small, `k`
passes of the loop started at `x_n` reach the `k`-th Newton iterate, and the loop
continues from there with the remaining budget. -/
lemma nr_loop_iterates (h t_n x_n tolerance reallySmall f0 : α) :
    ∀ k : Nat,
      (∀ j, j < k → tolerance < |fn_f h t_n (t_n + h) x_n (newtonIterate h t_n x_n j)|
          ∧ ¬ |fn_df h (t_n + h) (newtonIterate h t_n x_n j)| < reallySmall) →
      ∃ g : α, (0 < k → tolerance < |g|) ∧ ∀ m : Nat,
        nr_loop h t_n (t_n + h) x_n tolerance reallySmall (k + m)
            { i := 0, x_nn := x_n, f := f0 }
          = nr_loop h t_n (t_n + h) x_n tolerance reallySmall m
            { i := k, x_nn := newtonIterate h t_n x_n k, f := g } := by
  intro k
  induction k with
  | zero =>
    intro _
    refine ⟨f0, fun h0 => absurd h0 (lt_irrefl 0), fun m => ?_⟩
    simp only [Nat.zero_add, newtonIterate]
  | succ k ih =>
    intro hpre
    obtain ⟨g, -, hg⟩ := ih (fun j hj => hpre j (Nat.lt_succ_of_lt hj))
    obtain ⟨hf, hd⟩ := hpre k (Nat.lt_succ_self k)
    refine ⟨fn_f h t_n (t_n + h) x_n (newtonIterate h t_n x_n k), fun _ => hf, fun m => ?_⟩
    have e : k + 1 + m = k + (m + 1) := by omega
    rw [e, hg (m + 1)]
    exact nr_loop_step h t_n (t_n + h) x_n tolerance reallySmall m
      { i := k, x_nn := newtonIterate h t_n x_n k, f := g } hf hd

/-- The three ways a call with `iter ≥ 1` ends, in terms of the Newton iterates:
it returns the first iterate within tolerance, or aborts at the first small
derivative met before that, or exhausts the budget. -/
lemma fn_newtonRaphson_cases (h t_n x_n tolerance reallySmall f0 : α)
    (iter : Int) (hiter : 1 ≤ iter) :
    (∃ k : Nat, (k : Int) < iter
        ∧ (∀ j, j < k → tolerance < |fn_f h t_n (t_n + h) x_n (newtonIterate h t_n x_n j)|
            ∧ ¬ |fn_df h (t_n + h) (newtonIterate h t_n x_n j)| < reallySmall)
        ∧ |fn_f h t_n (t_n + h) x_n (newtonIterate h t_n x_n k)| ≤ tolerance
        ∧ nr_loop h t_n (t_n + h) x_n tolerance reallySmall iter.toNat
            { i := 0, x_nn := x_n, f := f0 }
          = .ok { i := k, x_nn := newtonIterate h t_n x_n k,
                  f := fn_f h t_n (t_n + h) x_n (newtonIterate h t_n x_n k) }
        ∧ fn_newtonRaphson h t_n x_n iter tolerance reallySmall f0
          = .ok (newtonIterate h t_n x_n k))
    ∨ (∃ k : Nat, (k : Int) < iter
        ∧ (∀ j, j < k → tolerance < |fn_f h t_n (t_n + h) x_n (newtonIterate h t_n x_n j)|
            ∧ ¬ |fn_df h (t_n + h) (newtonIterate h t_n x_n j)| < reallySmall)
        ∧ tolerance < |fn_f h t_n (t_n + h) x_n (newtonIterate h t_n x_n k)|
        ∧ |fn_df h (t_n + h) (newtonIterate h t_n x_n k)| < reallySmall
        ∧ fn_newtonRaphson h t_n x_n iter tolerance reallySmall f0
          = .error SimError.degenerateDerivative)
    ∨ ((∀ j : Nat, (j : Int) < iter →
          tolerance < |fn_f h t_n (t_n + h) x_n (newtonIterate h t_n x_n j)|
            ∧ ¬ |fn_df h (t_n + h) (newtonIterate h t_n x_n j)| < reallySmall)
        ∧ fn_newtonRaphson h t_n x_n iter tolerance reallySmall f0
          = .error SimError.nonConvergence) := by
  classical
  obtain ⟨n, hn, hcast⟩ := toNat_succ_of_one_le iter hiter
  by_cases hstop : ∃ k : Nat, k < n + 1 ∧
      (|fn_f h t_n (t_n + h) x_n (newtonIterate h t_n x_n k)| ≤ tolerance
        ∨ |fn_df h (t_n + h) (newtonIterate h t_n x_n k)| < reallySmall)
  · -- the loop stops at the least such index
    have hk := Nat.find_spec hstop
    have hmin := fun j (hj : j < Nat.find hstop) => Nat.find_min hstop hj
    generalize Nat.find hstop = k at hk hmin
    obtain ⟨hkn, hk2⟩ := hk
    have hpre : ∀ j, j < k →
        tolerance < |fn_f h t_n (t_n + h) x_n (newtonIterate h t_n x_n j)|
          ∧ ¬ |fn_df h (t_n + h) (newtonIterate h t_n x_n j)| < reallySmall := by
      intro j hj
      have hj2 := hmin j hj
      have hjn : j < n + 1 := lt_trans hj hkn
      constructor
      · exact not_le.mp (fun hle => hj2 ⟨hjn, Or.inl hle⟩)
      · exact fun hsm => hj2 ⟨hjn, Or.inr hsm⟩
    have hklt : (k : Int) < iter := by omega
    obtain ⟨g, -, hg⟩ := nr_loop_iterates h t_n x_n tolerance reallySmall f0 k hpre
    obtain ⟨m, hm⟩ : ∃ m, n + 1 = k + (m + 1) := ⟨n - k, by omega⟩
    by_cases hf : |fn_f h t_n (t_n + h) x_n (newtonIterate h t_n x_n k)| ≤ tolerance
    · left
      have hloop : nr_loop h t_n (t_n + h) x_n tolerance reallySmall iter.toNat
            { i := 0, x_nn := x_n, f := f0 }
          = .ok { i := k, x_nn := newtonIterate h t_n x_n k,
                  f := fn_f h t_n (t_n + h) x_n (newtonIterate h t_n x_n k) } := by
        rw [hn, hm, hg (m + 1)]
        exact nr_loop_break h t_n (t_n + h) x_n tolerance reallySmall m
          { i := k, x_nn := newtonIterate h t_n x_n k, f := g } hf
      refine ⟨k, hklt, hpre, hf, hloop, ?_⟩
      simp only [fn_newtonRaphson, hloop, hf, if_true]
    · right; left
      have hf2 := not_le.mp hf
      have hd : |fn_df h (t_n + h) (newtonIterate h t_n x_n k)| < reallySmall :=
        hk2.resolve_left hf
      refine ⟨k, hklt, hpre, hf2, hd, ?_⟩
      have hloop : nr_loop h t_n (t_n + h) x_n tolerance reallySmall iter.toNat
            { i := 0, x_nn := x_n, f := f0 }
          = .error SimError.degenerateDerivative := by
        rw [hn, hm, hg (m + 1)]
        exact nr_loop_abort h t_n (t_n + h) x_n tolerance reallySmall m
          { i := k, x_nn := newtonIterate h t_n x_n k, f := g } hf2 hd
      simp only [fn_newtonRaphson, hloop]
  · -- no pass stops: the budget is exhausted and the stale residual fails the test
    right; right
    have hall : ∀ j, j < n + 1 →
        tolerance < |fn_f h t_n (t_n + h) x_n (newtonIterate h t_n x_n j)|
          ∧ ¬ |fn_df h (t_n + h) (newtonIterate h t_n x_n j)| < reallySmall := by
      intro j hj
      constructor
      · exact not_le.mp (fun hle => hstop ⟨j, hj, Or.inl hle⟩)
      · exact fun hsm => hstop ⟨j, hj, Or.inr hsm⟩
    refine ⟨fun j hj => hall j (by omega), ?_⟩
    obtain ⟨g, hgt, hg⟩ := nr_loop_iterates h t_n x_n tolerance reallySmall f0 (n + 1) hall
    have hloop : nr_loop h t_n (t_n + h) x_n tolerance reallySmall iter.toNat
          { i := 0, x_nn := x_n, f := f0 }
        = .ok { i := n + 1, x_nn := newtonIterate h t_n x_n (n + 1), f := g } := by
      have := hg 0
      rw [Nat.add_zero] at this
      rw [hn, this]
      simp only [nr_loop]
    have hgt2 : ¬ |g| ≤ tolerance := not_le.mpr (hgt (Nat.succ_pos n))
    simp only [fn_newtonRaphson, hloop, hgt2, if_false]

end Trapezoidal

namespace Trapezoidal

variable {α : Type} [LinearOrderedField α]

/-- The residual-within-tolerance test after the loop, as a function of the loop's
outcome. -/
lemma fn_newtonRaphson_of_loop_ok (h t_n x_n tolerance reallySmall f0 : α) (iter : Int)
    (r : NRState α)
    (hloop : nr_loop h t_n (t_n + h) x_n tolerance reallySmall iter.toNat
      { i := 0, x_nn := x_n, f := f0 } = .ok r)
    (hr : |r.f| ≤ tolerance) :
    fn_newtonRaphson h t_n x_n iter tolerance reallySmall f0 = .ok r.x_nn := by
  simp only [fn_newtonRaphson, hloop, hr, if_true]

/-- The first step of the trapezoidal driver (`h = 0.01`, `t_n = 0`, `x_n = -1`,
ten iterations, tolerance `1e-8`, threshold `1e-10`): one Newton update, then the
residual is within tolerance and `-400001/400002` is returned. -/
lemma fn_newtonRaphson_first_step (f0 : ℚ) :
    fn_newtonRaphson (1 / 100 : ℚ) 0 (-1) 10 (1 / 100000000) (1 / 10000000000) f0
      = .ok (-400001 / 400002) := by
  have h1 := nr_loop_step (1 / 100 : ℚ) 0 (0 + 1 / 100) (-1) (1 / 100000000)
    (1 / 10000000000) 9 { i := 0, x_nn := -1, f := f0 }
    (by norm_num [fn_f, abs_lt, lt_abs]) (by norm_num [fn_df, abs_lt, lt_abs])
  have h2 := nr_loop_break (1 / 100 : ℚ) 0 (0 + 1 / 100) (-1) (1 / 100000000)
    (1 / 10000000000) 8
    { i := 0 + 1
      x_nn := -1 - fn_f (1 / 100 : ℚ) 0 (0 + 1 / 100) (-1) (-1) / fn_df (1 / 100 : ℚ) (0 + 1 / 100) (-1)
      f := fn_f (1 / 100 : ℚ) 0 (0 + 1 / 100) (-1) (-1) }
    (by norm_num [fn_f, fn_df, abs_le])
  have h3 := h1.trans h2
  have h4 := fn_newtonRaphson_of_loop_ok (1 / 100 : ℚ) 0 (-1) (1 / 100000000)
    (1 / 10000000000) f0 10 _ h3 (by norm_num [fn_f, fn_df, abs_le])
  rw [h4]
  norm_num [fn_f, fn_df]

/-- Witness for C1: the value returned by the first step of the trapezoidal
driver has its residual within `1e-8`. -/
theorem fn_newtonRaphson_returns_converged_witness :
    |fn_f (1 / 100 : ℚ) 0 (0 + 1 / 100) (-1) (-400001 / 400002)| ≤ 1 / 100000000 :=
  fn_newtonRaphson_returns_converged (1 / 100 : ℚ) 0 (-1) (1 / 100000000)
    (1 / 10000000000) 0 10 (by norm_num) (-400001 / 400002)
    (fn_newtonRaphson_first_step 0)

end Trapezoidal

namespace Trapezoidal

variable {α : Type} [LinearOrderedField α]

/-- C6: for `iter ≥ 1`, when the residual at the warm-start guess `x_nn = x_n` is
within tolerance the loop leaves at `i = 0` with `x_nn = x_n` (no update step)
and `fn_newtonRaphson` returns `x_n`, whatever `fn_df` is there. -/
theorem fn_newtonRaphson_warm_start (h t_n x_n tolerance reallySmall f0 : α)
    (iter : Int) (hiter : 1 ≤ iter)
    (hf : |fn_f h t_n (t_n + h) x_n x_n| ≤ tolerance) :
    nr_loop h t_n (t_n + h) x_n tolerance reallySmall iter.toNat
        { i := 0, x_nn := x_n, f := f0 }
      = .ok { i := 0, x_nn := x_n, f := fn_f h t_n (t_n + h) x_n x_n }
    ∧ fn_newtonRaphson h t_n x_n iter tolerance reallySmall f0 = .ok x_n := by
  obtain ⟨n, hn, -⟩ := toNat_succ_of_one_le iter hiter
  have hloop : nr_loop h t_n (t_n + h) x_n tolerance reallySmall iter.toNat
        { i := 0, x_nn := x_n, f := f0 }
      = .ok { i := 0, x_nn := x_n, f := fn_f h t_n (t_n + h) x_n x_n } := by
    rw [hn]
    exact nr_loop_break h t_n (t_n + h) x_n tolerance reallySmall n
      { i := 0, x_nn := x_n, f := f0 } hf
  exact ⟨hloop, fn_newtonRaphson_of_loop_ok h t_n x_n tolerance reallySmall f0 iter _ hloop hf⟩

/-- Witness for C6: at `h = 1`, `t_n = 0`, `x_n = 1/5` the derivative is `0`,
below the threshold `1`, the residual `1/5` is within the tolerance `1`, and
`x_n` is returned. -/
theorem fn_newtonRaphson_warm_start_witness :
    |fn_df (1 : ℚ) (0 + 1) (1 / 5)| < 1
    ∧ |fn_f (1 : ℚ) 0 (0 + 1) (1 / 5) (1 / 5)| ≤ 1
    ∧ fn_newtonRaphson (1 : ℚ) 0 (1 / 5) 10 1 1 0 = .ok (1 / 5) :=
  ⟨by norm_num [fn_df], by norm_num [fn_f, abs_le],
    (fn_newtonRaphson_warm_start (1 : ℚ) 0 (1 / 5) 1 1 0 10 (by norm_num)
      (by norm_num [fn_f, abs_le])).2⟩

/-- C7: for `iter ≥ 1`, a residual out of tolerance together with a derivative
below `reallySmall` at `x_n` makes `fn_newtonRaphson` fail with the
degenerate-derivative error; in general it fails so exactly when some iterate
`x^(k)`, `k < iter`, has residual out of tolerance and derivative too small, no
earlier iterate has both, and no earlier iterate is within tolerance. -/
theorem fn_newtonRaphson_degenerate (h t_n x_n tolerance reallySmall f0 : α)
    (iter : Int) (hiter : 1 ≤ iter) :
    (tolerance < |fn_f h t_n (t_n + h) x_n x_n| → |fn_df h (t_n + h) x_n| < reallySmall →
      fn_newtonRaphson h t_n x_n iter tolerance reallySmall f0
        = .error SimError.degenerateDerivative)
    ∧ (fn_newtonRaphson h t_n x_n iter tolerance reallySmall f0
          = .error SimError.degenerateDerivative
        ↔ ∃ k : Nat, (k : Int) < iter
            ∧ (tolerance < |fn_f h t_n (t_n + h) x_n (newtonIterate h t_n x_n k)|
                ∧ |fn_df h (t_n + h) (newtonIterate h t_n x_n k)| < reallySmall)
            ∧ (∀ j, j < k →
                ¬ (tolerance < |fn_f h t_n (t_n + h) x_n (newtonIterate h t_n x_n j)|
                    ∧ |fn_df h (t_n + h) (newtonIterate h t_n x_n j)| < reallySmall))
            ∧ (∀ j, j < k →
                tolerance < |fn_f h t_n (t_n + h) x_n (newtonIterate h t_n x_n j)|)) := by
  have hiff : fn_newtonRaphson h t_n x_n iter tolerance reallySmall f0
          = .error SimError.degenerateDerivative
        ↔ ∃ k : Nat, (k : Int) < iter
            ∧ (tolerance < |fn_f h t_n (t_n + h) x_n (newtonIterate h t_n x_n k)|
                ∧ |fn_df h (t_n + h) (newtonIterate h t_n x_n k)| < reallySmall)
            ∧ (∀ j, j < k →
                ¬ (tolerance < |fn_f h t_n (t_n + h) x_n (newtonIterate h t_n x_n j)|
                    ∧ |fn_df h (t_n + h) (newtonIterate h t_n x_n j)| < reallySmall))
            ∧ (∀ j, j < k →
                tolerance < |fn_f h t_n (t_n + h) x_n (newtonIterate h t_n x_n j)|) := by
    constructor
    · intro hR
      rcases fn_newtonRaphson_cases h t_n x_n tolerance reallySmall f0 iter hiter with
        ⟨k, -, -, -, -, hok⟩ | ⟨k, hk, hpre, hf, hd, -⟩ | ⟨-, hnc⟩
      · rw [hok] at hR
        cases hR
      · exact ⟨k, hk, ⟨hf, hd⟩, fun j hj hb => (hpre j hj).2 hb.2, fun j hj => (hpre j hj).1⟩
      · rw [hnc] at hR
        cases hR
    · rintro ⟨k, hk, ⟨hf, hd⟩, hfirst, hout⟩
      rcases fn_newtonRaphson_cases h t_n x_n tolerance reallySmall f0 iter hiter with
        ⟨k2, -, hpre, hf2, -, -⟩ | ⟨-, -, -, -, -, hdeg⟩ | ⟨hall, -⟩
      · exfalso
        rcases lt_trichotomy k k2 with hlt | heq | hgt
        · exact (hpre k hlt).2 hd
        · rw [heq] at hf
          exact absurd hf2 (not_le.mpr hf)
        · exact absurd hf2 (not_le.mpr (hout k2 hgt))
      · exact hdeg
      · exact absurd hd (hall k hk).2
  refine ⟨fun hf hd => hiff.mpr ⟨0, by omega, ⟨hf, hd⟩, ?_, ?_⟩, hiff⟩
  · intro j hj
    exact absurd hj (Nat.not_lt_zero j)
  · intro j hj
    exact absurd hj (Nat.not_lt_zero j)

/-- Witness for C7: at `h = 1`, `t_n = 0`, `x_n = 1/5` (`fn_f = 1/5`, `fn_df = 0`)
the call with the driver's settings fails with the degenerate-derivative error. -/
theorem fn_newtonRaphson_degenerate_witness :
    fn_f (1 : ℚ) 0 (0 + 1) (1 / 5) (1 / 5) = 1 / 5
    ∧ fn_df (1 : ℚ) (0 + 1) (1 / 5) = 0
    ∧ fn_newtonRaphson (1 : ℚ) 0 (1 / 5) 10 (1 / 100000000) (1 / 10000000000) 0
        = .error SimError.degenerateDerivative :=
  ⟨by norm_num [fn_f], by norm_num [fn_df],
    (fn_newtonRaphson_degenerate (1 : ℚ) 0 (1 / 5) (1 / 100000000) (1 / 10000000000) 0 10
      (by norm_num)).1 (by norm_num [fn_f, lt_abs]) (by norm_num [fn_df])⟩

end Trapezoidal

namespace Trapezoidal

variable {α : Type} [LinearOrderedField α]

/-- C8: for `iter ≥ 1`, when the call does not meet a degenerate derivative,
it returns the Newton iterate `x^(k)` for the least `k < iter` whose residual is
within tolerance; it fails with the non-convergence error exactly when no
`k < iter` has its residual within tolerance; and every returned value is such an
iterate `x^(k)` with `k < iter`, converged. -/
theorem fn_newtonRaphson_least_converged (h t_n x_n tolerance reallySmall f0 : α)
    (iter : Int) (hiter : 1 ≤ iter)
    (hnd : fn_newtonRaphson h t_n x_n iter tolerance reallySmall f0
      ≠ .error SimError.degenerateDerivative) :
    (∀ k : Nat, (k : Int) < iter →
        |fn_f h t_n (t_n + h) x_n (newtonIterate h t_n x_n k)| ≤ tolerance →
        (∀ j, j < k → tolerance < |fn_f h t_n (t_n + h) x_n (newtonIterate h t_n x_n j)|) →
        fn_newtonRaphson h t_n x_n iter tolerance reallySmall f0
          = .ok (newtonIterate h t_n x_n k))
    ∧ (fn_newtonRaphson h t_n x_n iter tolerance reallySmall f0
          = .error SimError.nonConvergence
        ↔ ∀ k : Nat, (k : Int) < iter →
            tolerance < |fn_f h t_n (t_n + h) x_n (newtonIterate h t_n x_n k)|)
    ∧ (∀ r : α, fn_newtonRaphson h t_n x_n iter tolerance reallySmall f0 = .ok r →
        |fn_f h t_n (t_n + h) x_n r| ≤ tolerance
        ∧ ∃ k : Nat, (k : Int) < iter ∧ r = newtonIterate h t_n x_n k
            ∧ ∀ j, j < k →
              tolerance < |fn_f h t_n (t_n + h) x_n (newtonIterate h t_n x_n j)|) := by
  rcases fn_newtonRaphson_cases h t_n x_n tolerance reallySmall f0 iter hiter with
    ⟨k0, hk0, hpre, hf0, -, hok⟩ | ⟨-, -, -, -, -, hdeg⟩ | ⟨hall, hnc⟩
  · refine ⟨?_, ?_, ?_⟩
    · intro k _ hf hout
      rcases lt_trichotomy k k0 with hlt | heq | hgt
      · exact absurd hf (not_le.mpr (hpre k hlt).1)
      · rw [heq]
        exact hok
      · exact absurd hf0 (not_le.mpr (hout k0 hgt))
    · constructor
      · intro hR
        rw [hok] at hR
        cases hR
      · intro hno
        exact absurd hf0 (not_le.mpr (hno k0 hk0))
    · intro r hr
      rw [hok] at hr
      simp only [Except.ok.injEq] at hr
      subst hr
      exact ⟨hf0, k0, hk0, rfl, fun j hj => (hpre j hj).1⟩
  · exact absurd hdeg hnd
  · refine ⟨?_, ?_, ?_⟩
    · intro k hk hf _
      exact absurd hf (not_le.mpr (hall k hk).1)
    · exact ⟨fun _ k hk => (hall k hk).1, fun _ => hnc⟩
    · intro r hr
      rw [hnc] at hr
      cases hr

/-- Witness for C8: the first step of the trapezoidal driver does not meet a
degenerate derivative, its residual at `x^(0) = -1` is out of tolerance and the
one at `x^(1)` is within, and `x^(1)` is returned. -/
theorem fn_newtonRaphson_least_converged_witness :
    fn_newtonRaphson (1 / 100 : ℚ) 0 (-1) 10 (1 / 100000000) (1 / 10000000000) 0
      = .ok (newtonIterate (1 / 100 : ℚ) 0 (-1) 1) :=
  (fn_newtonRaphson_least_converged (1 / 100 : ℚ) 0 (-1) (1 / 100000000)
    (1 / 10000000000) 0 10 (by norm_num)
    (by rw [fn_newtonRaphson_first_step 0]; exact fun hc => by cases hc)).1 1 (by norm_num)
    (by norm_num [newtonIterate, fn_f, fn_df, abs_le])
    (fun j hj => by
      have hj0 : j = 0 := by omega
      subst hj0
      norm_num [newtonIterate, fn_f, lt_abs])

end Trapezoidal

namespace BackwardEuler

variable {α : Type} [LinearOrderedField α]

/-- The unpacking loops read entry `[r][c]` from offset `(r*2)+c`. -/
lemma unpack_apply (i : Fin 4 → α) (r c : Fin 2) : unpack i r c = i (idx r c) := by
  fin_cases r <;> fin_cases c <;> simp [unpack, for2, set2, idx, Function.update]

/-- The packed matrix written by `fn_invert_2x2`, entry by entry. -/
lemma fn_invert_2x2_entries (i o : Fin 4 → α) :
    fn_invert_2x2 i o 0 = i 3 / det i
    ∧ fn_invert_2x2 i o 1 = (-1 * i 1) / det i
    ∧ fn_invert_2x2 i o 2 = (-1 * i 2) / det i
    ∧ fn_invert_2x2 i o 3 = i 0 / det i := by
  refine ⟨?_, ?_, ?_, ?_⟩ <;>
    simp [fn_invert_2x2, unpack_apply, for2, set2, idx, det, Function.update]

/-- The vector written by `fn_multiply_2x1`, entry by entry. -/
lemma fn_multiply_2x1_entries (i : Fin 4 → α) (jVec kVec : Fin 2 → α) :
    fn_multiply_2x1 i jVec kVec 0 = i 0 * jVec 0 + i 1 * jVec 1
    ∧ fn_multiply_2x1 i jVec kVec 1 = i 2 * jVec 0 + i 3 * jVec 1 := by
  refine ⟨?_, ?_⟩ <;>
    simp [fn_multiply_2x1, unpack_apply, for2, idx, Function.update]

/-- C4: for a packed matrix `M` with non-zero determinant and any vector `v`,
multiplying `M v` by the inverse computed by `fn_invert_2x2` gives back `v`,
whatever the output buffers held before. -/
theorem invert_multiply_round_trip (M o : Fin 4 → α) (v k1 k2 : Fin 2 → α)
    (hdet : M 0 * M 3 - M 1 * M 2 ≠ 0) :
    fn_multiply_2x1 (fn_invert_2x2 M o) (fn_multiply_2x1 M v k1) k2 = v := by
  obtain ⟨e0, e1, e2, e3⟩ := fn_invert_2x2_entries M o
  obtain ⟨m0, m1⟩ := fn_multiply_2x1_entries M v k1
  obtain ⟨p0, p1⟩ :=
    fn_multiply_2x1_entries (fn_invert_2x2 M o) (fn_multiply_2x1 M v k1) k2
  have hd : det M ≠ 0 := hdet
  funext r
  fin_cases r
  · show fn_multiply_2x1 (fn_invert_2x2 M o) (fn_multiply_2x1 M v k1) k2 0 = v 0
    rw [p0, e0, e1, m0, m1]
    field_simp
    simp only [det]
    ring
  · show fn_multiply_2x1 (fn_invert_2x2 M o) (fn_multiply_2x1 M v k1) k2 1 = v 1
    rw [p1, e2, e3, m0, m1]
    field_simp
    simp only [det]
    ring

/-- Witness for C4: `M = [[1,2],[3,4]]` (determinant `-2`) and `v = (5,6)`. -/
theorem invert_multiply_round_trip_witness :
    fn_multiply_2x1 (fn_invert_2x2 (![1, 2, 3, 4] : Fin 4 → ℚ) ![0, 0, 0, 0])
      (fn_multiply_2x1 ![1, 2, 3, 4] ![5, 6] ![0, 0]) ![0, 0] = ![5, 6] :=
  invert_multiply_round_trip (![1, 2, 3, 4] : Fin 4 → ℚ) ![0, 0, 0, 0] ![5, 6] ![0, 0]
    ![0, 0] (by norm_num)

/-- C5, counterexample: on the singular matrix `[[1,2],[2,4]]` the call of
`fn_invert_2x2` returns normally; it does not fail with the singular-system
error. -/
theorem fn_invert_2x2_singular_no_error :
    det (![1, 2, 2, 4] : Fin 4 → ℚ) = 0
    ∧ fn_invert_2x2_call (![1, 2, 2, 4] : Fin 4 → ℚ) ![0, 0, 0, 0]
        ≠ .error SimError.singularSystem := by
  constructor
  · norm_num [det]
  · intro hc
    simp only [fn_invert_2x2_call] at hc
    cases hc

/-- C5, amended: `fn_invert_2x2` tests nothing: on every matrix, singular or not,
the call returns normally and the output buffer holds the four quotients by the
determinant `a00*a11 - a01*a10`. -/
theorem fn_invert_2x2_always_returns (i o : Fin 4 → α) :
    fn_invert_2x2_call i o = .ok (fn_invert_2x2 i o)
    ∧ fn_invert_2x2 i o 0 = i 3 / (i 0 * i 3 - i 1 * i 2)
    ∧ fn_invert_2x2 i o 1 = (-1 * i 1) / (i 0 * i 3 - i 1 * i 2)
    ∧ fn_invert_2x2 i o 2 = (-1 * i 2) / (i 0 * i 3 - i 1 * i 2)
    ∧ fn_invert_2x2 i o 3 = i 0 / (i 0 * i 3 - i 1 * i 2) :=
  ⟨rfl, fn_invert_2x2_entries i o⟩

end BackwardEuler

/-- C9: one pass of either forward-Euler loop body replaces the state by
`x + h * f(t, x)` computed from the state at entry: the scalar program with
`df(t, x) = 5 t² x²`, the circuit program with `fn_df_v1` and `fn_df_v2` both
applied to the old `(v1_n, v2_n)`; the time advances by `h`. -/
theorem explicit_step_from_current_state {α : Type} [LinearOrderedField α]
    (h : α) (s : ScalarForwardEuler.State α)
    (sin : α → α) (c1 c2 r1 r2 vm omega hc : α) (c : CircuitForwardEuler.State α) :
    ((ScalarForwardEuler.loop_body h s).x_n = s.x_n + h * ScalarForwardEuler.df s.t_n s.x_n
      ∧ ScalarForwardEuler.df s.t_n s.x_n = 5 * s.t_n ^ 2 * s.x_n ^ 2
      ∧ (ScalarForwardEuler.loop_body h s).t_n = s.t_n + h)
    ∧ ((CircuitForwardEuler.loop_body sin c1 c2 r1 r2 vm omega hc c).v1_n
          = c.v1_n + hc * CircuitForwardEuler.fn_df_v1 (vm * sin (omega * c.t_n))
              c.v1_n c.v2_n c1 r1 r2
      ∧ (CircuitForwardEuler.loop_body sin c1 c2 r1 r2 vm omega hc c).v2_n
          = c.v2_n + hc * CircuitForwardEuler.fn_df_v2 c.v1_n c.v2_n c2 r2
      ∧ (CircuitForwardEuler.loop_body sin c1 c2 r1 r2 vm omega hc c).t_n = c.t_n + hc) := by
  refine ⟨⟨?_, ?_, rfl⟩, ?_, ?_, rfl⟩
  · simp only [ScalarForwardEuler.loop_body]
    ring
  · simp only [ScalarForwardEuler.df]
    ring
  · simp only [CircuitForwardEuler.loop_body]
    ring
  · simp only [CircuitForwardEuler.loop_body]
    ring

namespace CircuitForwardEuler

variable {α : Type} [LinearOrderedField α]

/-- The value `fn_df_v1` returns agrees with the formula of its header comment
only where `v2 = v1`: the `r2` term enters with the opposite sign. -/
lemma fn_df_v1_eq_header_iff (vs v1 v2 c1 r1 r2 : α) (hc1 : c1 ≠ 0) (hr2 : r2 ≠ 0) :
    fn_df_v1 vs v1 v2 c1 r1 r2 = (1 / c1) * ((vs - v1) / r1 + (v2 - v1) / r2)
      ↔ v2 = v1 := by
  have hone : (1 : α) / c1 ≠ 0 := one_div_ne_zero hc1
  simp only [fn_df_v1]
  constructor
  · intro heq
    have h1 := mul_left_cancel₀ hone heq
    have h2 : (v2 - v1) / r2 = 0 := by linarith
    rcases div_eq_zero_iff.mp h2 with h3 | h3
    · exact sub_eq_zero.mp h3
    · exact absurd h3 hr2
  · intro heq
    rw [heq]
    simp

/-- C10, the code at the failing input `vs = 0, v1 = 0, v2 = 1, c1 = r1 = r2 = 1`:
`fn_df_v1` returns `-1`, the header comment's formula
`1/c1 ((vs-v1)/r1 + (v2-v1)/r2)` gives `1`. -/
theorem fn_df_v1_sign_at_input :
    fn_df_v1 (0 : ℚ) 0 1 1 1 1 = -1
    ∧ (1 / 1 : ℚ) * ((0 - 0) / 1 + (1 - 0) / 1) = 1 := by
  constructor <;> norm_num [fn_df_v1]

end CircuitForwardEuler

/-- When the condition holds after each of the first `k` passes and fails after
pass `k + 1`, the loop makes exactly `k + 1` passes, given a budget that large. -/
lemma do_while_iterate {σ : Type} (body : σ → σ) (cond : σ → Bool) :
    ∀ (k : Nat) (s : σ) (fuel : Nat),
      (∀ j, 1 ≤ j → j ≤ k → cond (body^[j] s) = true) →
      cond (body^[k + 1] s) = false → k + 1 ≤ fuel →
      do_while body cond fuel s = some (body^[k + 1] s) := by
  intro k
  induction k with
  | zero =>
    intro s fuel _ hstop hfuel
    obtain ⟨f, rfl⟩ : ∃ f, fuel = f + 1 := ⟨fuel - 1, by omega⟩
    have hstop1 : cond (body s) = false := hstop
    simp only [do_while, hstop1, Function.iterate_succ, Function.iterate_zero,
      Function.comp_apply, id_eq]
    rfl
  | succ k ih =>
    intro s fuel hcont hstop hfuel
    obtain ⟨f, rfl⟩ : ∃ f, fuel = f + 1 := ⟨fuel - 1, by omega⟩
    have h1 : cond (body s) = true := hcont 1 (le_refl 1) (by omega)
    have hrec := ih (body s) f
      (fun j hj1 hjk => by
        have := hcont (j + 1) (by omega) (by omega)
        rwa [Function.iterate_succ_apply] at this)
      (by rwa [Function.iterate_succ_apply] at hstop)
      (by omega)
    simp only [do_while, h1, if_true]
    rw [hrec, Function.iterate_succ_apply body (k + 1) s]

/-- With too small a budget the loop does not finish. -/
lemma do_while_short {σ : Type} (body : σ → σ) (cond : σ → Bool) :
    ∀ (fuel : Nat) (s : σ),
      (∀ j, 1 ≤ j → j ≤ fuel → cond (body^[j] s) = true) →
      do_while body cond fuel s = none := by
  intro fuel
  induction fuel with
  | zero =>
    intro s _
    rfl
  | succ f ih =>
    intro s hcont
    have h1 : cond (body s) = true := hcont 1 (le_refl 1) (by omega)
    have hrec := ih (body s)
      (fun j hj1 hjk => by
        have := hcont (j + 1) (by omega) (by omega)
        rwa [Function.iterate_succ_apply] at this)
    simp only [do_while, h1, if_true]
    exact hrec

/-- In an Archimedean field a positive step passes any horizon: there is a least
number `k + 1 ≥ 1` of steps with `t_end ≤ t + (k + 1) h`. -/
lemma exists_least_step {α : Type} [LinearOrderedField α] [Archimedean α]
    (h t t_end : α) (hpos : 0 < h) :
    ∃ k : Nat, t_end ≤ t + ((k + 1 : Nat) : α) * h
      ∧ ∀ j : Nat, 1 ≤ j → j ≤ k → t + (j : α) * h < t_end := by
  classical
  have hex : ∃ n : Nat, t_end ≤ t + ((n + 1 : Nat) : α) * h := by
    obtain ⟨n, hn⟩ := exists_nat_ge ((t_end - t) / h)
    refine ⟨n, ?_⟩
    have h1 : t_end - t ≤ (n : α) * h := (div_le_iff₀ hpos).mp hn
    have h2 : (n : α) * h ≤ ((n + 1 : Nat) : α) * h := by
      push_cast
      nlinarith
    linarith
  refine ⟨Nat.find hex, Nat.find_spec hex, ?_⟩
  intro j hj1 hjk
  have hlt : j - 1 < Nat.find hex := by omega
  have hnot := Nat.find_min hex hlt
  have hcast : ((j - 1 + 1 : Nat) : α) = (j : α) := by
    have : j - 1 + 1 = j := by omega
    rw [this]
  rw [hcast] at hnot
  exact not_le.mp hnot

/-- When every pass adds `h` to the time, the time after `j` passes is the
initial time plus `j h`. -/
lemma iterate_time {σ α : Type} [LinearOrderedField α]
    (body : σ → σ) (time : σ → α) (h : α)
    (hstep : ∀ s, time (body s) = time s + h) (s : σ) :
    ∀ j : Nat, time (body^[j] s) = time s + (j : α) * h := by
  intro j
  induction j with
  | zero => simp
  | succ j ih =>
    rw [Function.iterate_succ_apply', hstep, ih]
    push_cast
    ring

/-- A timed `do`-`while` loop: when every pass adds `h > 0` to the time and the
loop repeats while the time is below `t_end`, it stops after the least number
`k + 1 ≥ 1` of passes that brings the time to `t_end` or beyond. -/
lemma do_while_timed {σ α : Type} [LinearOrderedField α] [Archimedean α]
    (body : σ → σ) (time : σ → α) (h t_end : α) (hpos : 0 < h)
    (hstep : ∀ s, time (body s) = time s + h) (s : σ) :
    (∀ j : Nat, time (body^[j] s) = time s + (j : α) * h)
    ∧ ∃ k : Nat, t_end ≤ time s + ((k + 1 : Nat) : α) * h
      ∧ (∀ j : Nat, 1 ≤ j → j ≤ k → time s + (j : α) * h < t_end)
      ∧ (∀ fuel, k + 1 ≤ fuel →
          do_while body (fun s => decide (time s < t_end)) fuel s = some (body^[k + 1] s))
      ∧ (∀ fuel, fuel ≤ k →
          do_while body (fun s => decide (time s < t_end)) fuel s = none) := by
  have htime := iterate_time body time h hstep s
  refine ⟨htime, ?_⟩
  obtain ⟨k, hk, hmin⟩ := exists_least_step h (time s) t_end hpos
  refine ⟨k, hk, hmin, ?_, ?_⟩
  · intro fuel hfuel
    apply do_while_iterate body _ k s fuel _ _ hfuel
    · intro j hj1 hjk
      simp only [decide_eq_true_eq]
      rw [htime j]
      exact hmin j hj1 hjk
    · simp only [decide_eq_false_iff_not, not_lt]
      rw [htime (k + 1)]
      exact hk
  · intro fuel hfuel
    apply do_while_short body _ fuel s
    intro j hj1 hjk
    simp only [decide_eq_true_eq]
    rw [htime j]
    exact hmin j hj1 (le_trans hjk hfuel)

namespace ScalarForwardEuler

variable {α : Type} [LinearOrderedField α]

/-- Each pass appends one record, and the record of the first pass stays first. -/
lemma iterate_out (h : α) (s : State α) :
    ∀ j : Nat, (((loop_body h)^[j] s).out.length = s.out.length + j)
      ∧ ∃ rest, ((loop_body h)^[j + 1] s).out = s.out ++ (s.t_n, s.x_n) :: rest := by
  intro j
  induction j with
  | zero =>
    exact ⟨rfl, [], rfl⟩
  | succ j ih =>
    obtain ⟨hlen, rest, hrest⟩ := ih
    constructor
    · rw [Function.iterate_succ_apply']
      simp only [loop_body, List.length_append, List.length_singleton, hlen]
      omega
    · refine ⟨rest ++ [(((loop_body h)^[j + 1] s).t_n, ((loop_body h)^[j + 1] s).x_n)], ?_⟩
      rw [Function.iterate_succ_apply']
      simp only [loop_body]
      rw [hrest]
      simp

end ScalarForwardEuler

namespace BackwardEuler

variable {α : Type} [LinearOrderedField α]

/-- Each pass of the backward-Euler body appends one record. -/
lemma be_iterate_out_length (sin : α → α) (c1 c2 g1 g2 vm omega h : α) (s : State α) :
    ∀ j : Nat, ((loop_body sin c1 c2 g1 g2 vm omega h)^[j] s).out.length
      = s.out.length + j := by
  intro j
  induction j with
  | zero => rfl
  | succ j ih =>
    rw [Function.iterate_succ_apply']
    simp only [loop_body, List.length_append, List.length_singleton, ih]
    omega

end BackwardEuler

/-- C15: for `h > 0` the `do`-`while` loops of the scalar forward-Euler and the
backward-Euler drivers terminate: they make exactly `k` passes, `k` the least
integer `≥ 1` with `t_start + k h ≥ t_end` (a budget of `k` suffices, a smaller
one does not), the time after `j` passes is `t_start + j h`, and it increases
strictly with every pass. -/
theorem driver_loop_terminates {α : Type} [LinearOrderedField α] [Archimedean α]
    (h t_end : α) (hpos : 0 < h) (s : ScalarForwardEuler.State α)
    (sin : α → α) (c1 c2 g1 g2 vm omega : α) (c : BackwardEuler.State α) :
    ((∀ j : Nat, ((ScalarForwardEuler.loop_body h)^[j] s).t_n = s.t_n + (j : α) * h
        ∧ ((ScalarForwardEuler.loop_body h)^[j] s).t_n
            < ((ScalarForwardEuler.loop_body h)^[j + 1] s).t_n)
      ∧ ∃ k : Nat, 1 ≤ k ∧ t_end ≤ s.t_n + (k : α) * h
        ∧ (∀ j : Nat, 1 ≤ j → j < k → s.t_n + (j : α) * h < t_end)
        ∧ (∀ fuel, k ≤ fuel →
            ScalarForwardEuler.run h t_end fuel s
              = some ((ScalarForwardEuler.loop_body h)^[k] s))
        ∧ (∀ fuel, fuel < k → ScalarForwardEuler.run h t_end fuel s = none))
    ∧ ((∀ j : Nat, ((BackwardEuler.loop_body sin c1 c2 g1 g2 vm omega h)^[j] c).t_n
            = c.t_n + (j : α) * h
        ∧ ((BackwardEuler.loop_body sin c1 c2 g1 g2 vm omega h)^[j] c).t_n
            < ((BackwardEuler.loop_body sin c1 c2 g1 g2 vm omega h)^[j + 1] c).t_n)
      ∧ ∃ k : Nat, 1 ≤ k ∧ t_end ≤ c.t_n + (k : α) * h
        ∧ (∀ j : Nat, 1 ≤ j → j < k → c.t_n + (j : α) * h < t_end)
        ∧ (∀ fuel, k ≤ fuel →
            do_while (BackwardEuler.loop_body sin c1 c2 g1 g2 vm omega h)
                (fun s => decide (s.t_n < t_end)) fuel c
              = some ((BackwardEuler.loop_body sin c1 c2 g1 g2 vm omega h)^[k] c))
        ∧ (∀ fuel, fuel < k →
            do_while (BackwardEuler.loop_body sin c1 c2 g1 g2 vm omega h)
                (fun s => decide (s.t_n < t_end)) fuel c = none)) := by
  constructor
  · obtain ⟨htime, k, hk, hmin, hrun, hshort⟩ :=
      do_while_timed (ScalarForwardEuler.loop_body h) (fun s => s.t_n) h t_end hpos
        (fun _ => rfl) s
    refine ⟨fun j => ⟨htime j, ?_⟩, k + 1, by omega, hk,
      fun j hj1 hjk => hmin j hj1 (by omega), fun fuel hf => hrun fuel hf,
      fun fuel hf => hshort fuel (by omega)⟩
    have h1 := htime j
    have h2 := htime (j + 1)
    simp only at h1 h2
    rw [h1, h2]
    push_cast
    linarith
  · obtain ⟨htime, k, hk, hmin, hrun, hshort⟩ :=
      do_while_timed (BackwardEuler.loop_body sin c1 c2 g1 g2 vm omega h)
        (fun s => s.t_n) h t_end hpos (fun _ => rfl) c
    refine ⟨fun j => ⟨htime j, ?_⟩, k + 1, by omega, hk,
      fun j hj1 hjk => hmin j hj1 (by omega), fun fuel hf => hrun fuel hf,
      fun fuel hf => hshort fuel (by omega)⟩
    have h1 := htime j
    have h2 := htime (j + 1)
    simp only at h1 h2
    rw [h1, h2]
    push_cast
    linarith

/-- Witness for C15: with `h = 1`, `t_start = 0`, `t_end = 2` the least `k` is
`2`, and the scalar loop makes exactly two passes. -/
theorem driver_loop_terminates_witness :
    ∃ k : Nat, k = 2
      ∧ ScalarForwardEuler.run (1 : ℚ) 2 k { t_n := 0, x_n := -1, out := [] }
          = some ((ScalarForwardEuler.loop_body (1 : ℚ))^[k] { t_n := 0, x_n := -1, out := [] })
      ∧ ScalarForwardEuler.run (1 : ℚ) 2 1 { t_n := 0, x_n := -1, out := [] } = none := by
  obtain ⟨k, -, hk, hmin, hrun, hshort⟩ :=
    (driver_loop_terminates (1 : ℚ) 2 (by norm_num) { t_n := 0, x_n := -1, out := [] }
      (fun _ => 0) 1 1 1 1 0 1 BackwardEuler.init).1.2
  have hk2 : k = 2 := by
    simp only [zero_add, mul_one] at hk hmin
    have h2 : (2 : ℚ) ≤ (k : ℚ) := hk
    have h3 : 2 ≤ k := by exact_mod_cast h2
    by_contra hne
    have h4 : 2 < k := lt_of_le_of_ne h3 (Ne.symm hne)
    have h5 := hmin 2 (by norm_num) h4
    norm_num at h5
  refine ⟨k, hk2, hrun k (le_refl k), hshort 1 (by omega)⟩

namespace ScalarForwardEuler

variable {α : Type} [LinearOrderedField α]

/-- In exact arithmetic, with the step exactly `1/100`, start `(0, -1)` and
horizon `5`, the scalar loop makes exactly 500 passes (a budget of 500 or more
gives the state after 500 passes, a smaller one does not finish): the time is
below 5 after each of the first 499 passes and is 5 after pass 500; the first
record written is `(0, -1)`. -/
lemma run_exact_hundredth_500_passes :
    (∀ extra : Nat, run (1 / 100 : α) 5 (500 + extra) { t_n := 0, x_n := -1, out := [] }
        = some ((loop_body (1 / 100 : α))^[500] { t_n := 0, x_n := -1, out := [] }))
    ∧ (∀ fuel : Fin 500,
        run (1 / 100 : α) 5 fuel.val { t_n := 0, x_n := -1, out := [] } = none)
    ∧ (∀ j : Fin 500,
        ((loop_body (1 / 100 : α))^[j.val] { t_n := 0, x_n := -1, out := [] }).t_n < 5)
    ∧ ((loop_body (1 / 100 : α))^[500] { t_n := 0, x_n := -1, out := [] }).t_n = 5
    ∧ ((loop_body (1 / 100 : α))^[500] { t_n := 0, x_n := -1, out := [] }).out.head?
        = some (0, -1) := by
  have htime := iterate_time (loop_body (1 / 100 : α)) (fun s => s.t_n) (1 / 100)
    (fun _ => rfl) { t_n := 0, x_n := -1, out := [] }
  simp only [zero_add] at htime
  have hlt : ∀ j : Nat, j ≤ 499 →
      ((loop_body (1 / 100 : α))^[j] { t_n := 0, x_n := -1, out := [] }).t_n < 5 := by
    intro j hj
    rw [htime j]
    have hc : (j : α) ≤ 499 := by exact_mod_cast hj
    linarith
  have h500 : ((loop_body (1 / 100 : α))^[500] { t_n := 0, x_n := -1, out := [] }).t_n = 5 := by
    rw [htime 500]
    norm_num
  refine ⟨?_, ?_, ?_, h500, ?_⟩
  · intro extra
    apply do_while_iterate (loop_body (1 / 100 : α)) _ 499 _ (500 + extra)
    · intro j _ hj
      simp only [decide_eq_true_eq]
      exact hlt j hj
    · simp only [decide_eq_false_iff_not, not_lt]
      exact le_of_eq h500.symm
    · omega
  · intro fuel
    apply do_while_short (loop_body (1 / 100 : α)) _ fuel.val
    intro j _ hj
    simp only [decide_eq_true_eq]
    exact hlt j (by have := fuel.isLt; omega)
  · intro j
    exact hlt j.val (by have := j.isLt; omega)
  · obtain ⟨rest, hrest⟩ :=
      (iterate_out (1 / 100 : α) { t_n := 0, x_n := -1, out := [] } 499).2
    rw [hrest]
    rfl

end ScalarForwardEuler

namespace Binary64

/-- A number of at most 53 bits is a binary64 number: rounding leaves it as it
is. -/
lemma round_of_lt (n : Nat) (hn : n < 2 ^ 53) : round n = n := by
  have h0 : n / 2 ^ 0 < 2 ^ 53 := by
    rw [pow_zero, Nat.div_one]
    exact hn
  have hk : shift n 2048 0 = 0 := by
    show shift n (2047 + 1) 0 = 0
    rw [shift, if_pos h0]
  simp only [round, hk, pow_zero, Nat.mod_one, Nat.div_one, mul_zero, mul_one,
    Nat.zero_lt_one, if_true]

/-- Rounding of 54-bit numbers: an odd number lies half-way between two
neighbours and goes to the one with even significand; an even number is kept.
At 55 bits, one quarter goes down and three quarters go up. -/
lemma round_examples :
    round (2 ^ 53 + 1) = 2 ^ 53
    ∧ round (2 ^ 53 + 2) = 2 ^ 53 + 2
    ∧ round (2 ^ 53 + 3) = 2 ^ 53 + 4
    ∧ round (2 ^ 54 + 1) = 2 ^ 54
    ∧ round (2 ^ 54 + 3) = 2 ^ 54 + 4 := by
  refine ⟨by decide!, by decide!, by decide!, by decide!, by decide!⟩

end Binary64

namespace ScalarForwardEuler

/-- C12, the program as written, in binary64: the double nearest `0.01` is
`5764607523034235 / 2^59` (a 53-bit significand, within half a unit in the last
place of `1/100`); after 500 additions of it the time is
`2882303761517081600 / 2^59`, which is `4.999999999999938` to 16 digits and still
below `5`, so the loop makes a 501st pass and stops at
`2888068369040115712 / 2^59`, which is `5.009999999999938` to 16 digits: the
program makes exactly 501 passes (a budget of 500 does not finish) and writes 501
records. -/
theorem main_clock_makes_501_passes :
    (2 ^ 52 ≤ h_binary64 ∧ h_binary64 < 2 ^ 53
      ∧ 2 ^ 59 ≤ 100 * h_binary64 ∧ 2 * (100 * h_binary64 - 2 ^ 59) < 100)
    ∧ (fun t => Binary64.add t h_binary64)^[500] 0 = 2882303761517081600
    ∧ (4999999999999937 * 2 ^ 59 < 2882303761517081600 * 10 ^ 15
      ∧ 2882303761517081600 * 10 ^ 15 < 4999999999999939 * 2 ^ 59)
    ∧ 2882303761517081600 < 5 * 2 ^ 59
    ∧ main_clock 500 = none
    ∧ main_clock 501 = some { t_n := 2888068369040115712, records := 501 }
    ∧ (5009999999999937 * 2 ^ 59 < 2888068369040115712 * 10 ^ 15
      ∧ 2888068369040115712 * 10 ^ 15 < 5009999999999939 * 2 ^ 59)
    ∧ 5 * 2 ^ 59 ≤ 2888068369040115712 := by
  refine ⟨by decide!, by decide!, by decide!, by decide!, by decide!, by decide!,
    by decide!, by decide!⟩

end ScalarForwardEuler

namespace CircuitForwardEuler

variable {α : Type} [LinearOrderedField α]

/-- Each pass of the circuit forward-Euler body appends one record. -/
lemma fe_iterate_out_length (sin : α → α) (c1 c2 r1 r2 vm omega h : α) (s : State α) :
    ∀ j : Nat, ((loop_body sin c1 c2 r1 r2 vm omega h)^[j] s).out.length
      = s.out.length + j := by
  intro j
  induction j with
  | zero => rfl
  | succ j ih =>
    rw [Function.iterate_succ_apply']
    simp only [loop_body, List.length_append, List.length_singleton, ih]
    omega

end CircuitForwardEuler

/-- The least number `k + 1` of steps of size `h > 0` that brings `t < t_end` to
`t_end` or beyond is the ceiling of `(t_end - t) / h`; the floor is `k` when the
quotient is not an integer and `k + 1` when it is. -/
lemma step_count_ceil {α : Type} [LinearOrderedField α] [FloorRing α]
    (h t t_end : α) (hpos : 0 < h) (hlt : t < t_end) (k : Nat)
    (hk : t_end ≤ t + ((k + 1 : Nat) : α) * h)
    (hmin : ∀ j : Nat, 1 ≤ j → j ≤ k → t + (j : α) * h < t_end) :
    ⌈(t_end - t) / h⌉ = ((k + 1 : Nat) : Int)
    ∧ ((t_end - t) / h ≠ (⌊(t_end - t) / h⌋ : α) → ⌊(t_end - t) / h⌋ = (k : Int))
    ∧ ((t_end - t) / h = (⌊(t_end - t) / h⌋ : α) →
        ⌊(t_end - t) / h⌋ = ((k + 1 : Nat) : Int)) := by
  have hup : (t_end - t) / h ≤ ((k + 1 : Nat) : α) := by
    rw [div_le_iff₀ hpos]
    linarith
  have hlow : (k : α) < (t_end - t) / h := by
    rw [lt_div_iff₀ hpos]
    rcases Nat.eq_zero_or_pos k with h0 | h0
    · subst h0
      simp only [Nat.cast_zero, zero_mul]
      linarith
    · have := hmin k h0 (le_refl k)
      linarith
  have hceil : ⌈(t_end - t) / h⌉ = ((k + 1 : Nat) : Int) := by
    rw [Int.ceil_eq_iff]
    constructor
    · push_cast
      simpa using hlow
    · exact_mod_cast hup
  refine ⟨hceil, ?_, ?_⟩
  · intro hne
    rw [Int.floor_eq_iff]
    constructor
    · exact_mod_cast le_of_lt hlow
    · have hne2 : (t_end - t) / h ≠ ((k + 1 : Nat) : α) := by
        intro heq
        apply hne
        rw [heq]
        rw [Int.floor_natCast]
        push_cast
        rfl
      have hlt2 := lt_of_le_of_ne hup hne2
      push_cast at hlt2 ⊢
      exact hlt2
  · intro heq
    have hc : (⌈(t_end - t) / h⌉ : Int) = ⌊(t_end - t) / h⌋ := by
      rw [heq, Int.ceil_intCast, Int.floor_intCast]
    rw [← hc, hceil]

/-- A timed `do`-`while` loop whose every pass writes one record: started below
the horizon it finishes, and whenever it finishes it has written
`⌈(t_end - t) / h⌉` records. -/
lemma do_while_timed_count {σ α : Type} [LinearOrderedField α] [FloorRing α]
    (body : σ → σ) (time : σ → α) (len : σ → Nat) (h t_end : α) (hpos : 0 < h)
    (hstep : ∀ s, time (body s) = time s + h)
    (hlen : ∀ s, len (body s) = len s + 1) (s : σ) (hlt : time s < t_end) :
    (∃ fuel r, do_while body (fun s => decide (time s < t_end)) fuel s = some r)
    ∧ ∀ fuel r, do_while body (fun s => decide (time s < t_end)) fuel s = some r →
        ((len r : Int) = len s + ⌈(t_end - time s) / h⌉) := by
  obtain ⟨-, k, hk, hmin, hrun, hshort⟩ := do_while_timed body time h t_end hpos hstep s
  obtain ⟨hceil, -, -⟩ := step_count_ceil h (time s) t_end hpos hlt k hk hmin
  have hlenj : ∀ j : Nat, len (body^[j] s) = len s + j := by
    intro j
    induction j with
    | zero => rfl
    | succ j ih =>
      rw [Function.iterate_succ_apply', hlen, ih]
      omega
  refine ⟨⟨k + 1, _, hrun (k + 1) (le_refl _)⟩, ?_⟩
  intro fuel r hr
  rcases Nat.lt_or_ge k fuel with hf | hf
  · rw [hrun fuel hf] at hr
    simp only [Option.some.injEq] at hr
    rw [← hr, hlenj (k + 1), hceil]
    push_cast
    ring
  · rw [hshort fuel hf] at hr
    cases hr

/-- C14, amended: for `h > 0` and `t_start < t_end` both circuit drivers finish,
and a finished run has written `⌈(t_end - t_start) / h⌉ + 1` records: that is
`⌊(t_end - t_start) / h⌋ + 2` when the quotient is not an integer and
`⌊(t_end - t_start) / h⌋ + 1` when it is. -/
theorem circuit_record_count {α : Type} [LinearOrderedField α] [FloorRing α]
    (sin : α → α) (c1 c2 r1 r2 g1 g2 vm omega h t_end : α) (hpos : 0 < h)
    (f : CircuitForwardEuler.State α) (b : BackwardEuler.State α)
    (hf : f.t_n < t_end) (hb : b.t_n < t_end) :
    ((∃ fuel r, CircuitForwardEuler.run sin c1 c2 r1 r2 vm omega h t_end fuel f = some r)
      ∧ ∀ fuel r, CircuitForwardEuler.run sin c1 c2 r1 r2 vm omega h t_end fuel f = some r →
          ((r.out.length : Int) = f.out.length + ⌈(t_end - f.t_n) / h⌉ + 1)
          ∧ ((t_end - f.t_n) / h ≠ (⌊(t_end - f.t_n) / h⌋ : α) →
              (r.out.length : Int) = f.out.length + ⌊(t_end - f.t_n) / h⌋ + 2)
          ∧ ((t_end - f.t_n) / h = (⌊(t_end - f.t_n) / h⌋ : α) →
              (r.out.length : Int) = f.out.length + ⌊(t_end - f.t_n) / h⌋ + 1))
    ∧ ((∃ fuel r, BackwardEuler.run sin c1 c2 g1 g2 vm omega h t_end fuel b = some r)
      ∧ ∀ fuel r, BackwardEuler.run sin c1 c2 g1 g2 vm omega h t_end fuel b = some r →
          ((r.out.length : Int) = b.out.length + ⌈(t_end - b.t_n) / h⌉ + 1)
          ∧ ((t_end - b.t_n) / h ≠ (⌊(t_end - b.t_n) / h⌋ : α) →
              (r.out.length : Int) = b.out.length + ⌊(t_end - b.t_n) / h⌋ + 2)
          ∧ ((t_end - b.t_n) / h = (⌊(t_end - b.t_n) / h⌋ : α) →
              (r.out.length : Int) = b.out.length + ⌊(t_end - b.t_n) / h⌋ + 1)) := by
  have harith : ∀ t : α, t < t_end →
      ((t_end - t) / h ≠ (⌊(t_end - t) / h⌋ : α) →
          ⌈(t_end - t) / h⌉ = ⌊(t_end - t) / h⌋ + 1)
      ∧ ((t_end - t) / h = (⌊(t_end - t) / h⌋ : α) →
          ⌈(t_end - t) / h⌉ = ⌊(t_end - t) / h⌋) := by
    intro t ht
    obtain ⟨k, hk, hmin⟩ := exists_least_step h t t_end hpos
    obtain ⟨hceil, hfl1, hfl2⟩ := step_count_ceil h t t_end hpos ht k hk hmin
    refine ⟨fun hne => ?_, fun heq => ?_⟩
    · rw [hceil, hfl1 hne]
      push_cast
      rfl
    · rw [hceil, hfl2 heq]
  constructor
  · obtain ⟨⟨fuel, r, hr⟩, hcount⟩ :=
      do_while_timed_count (CircuitForwardEuler.loop_body sin c1 c2 r1 r2 vm omega h)
        (fun s => s.t_n) (fun s => s.out.length) h t_end hpos (fun _ => rfl)
        (fun s => by simp [CircuitForwardEuler.loop_body]) f hf
    constructor
    · exact ⟨fuel, _, by rw [CircuitForwardEuler.run, hr]⟩
    · intro fuel2 res hr2
      simp only [CircuitForwardEuler.run] at hr2
      cases hdw : do_while (CircuitForwardEuler.loop_body sin c1 c2 r1 r2 vm omega h)
          (fun s => decide (s.t_n < t_end)) fuel2 f with
      | none =>
        rw [hdw] at hr2
        cases hr2
      | some s2 =>
        rw [hdw] at hr2
        simp only [Option.some.injEq] at hr2
        have hc := hcount fuel2 s2 hdw
        simp only at hc
        have hlen : (res.out.length : Int) = s2.out.length + 1 := by
          rw [← hr2]
          simp
        obtain ⟨ha1, ha2⟩ := harith f.t_n hf
        refine ⟨by rw [hlen, hc], fun hne => ?_, fun heq => ?_⟩
        · rw [hlen, hc, ha1 hne]
          ring
        · rw [hlen, hc, ha2 heq]
  · obtain ⟨⟨fuel, r, hr⟩, hcount⟩ :=
      do_while_timed_count (BackwardEuler.loop_body sin c1 c2 g1 g2 vm omega h)
        (fun s => s.t_n) (fun s => s.out.length) h t_end hpos (fun _ => rfl)
        (fun s => by simp [BackwardEuler.loop_body]) b hb
    constructor
    · exact ⟨fuel, _, by rw [BackwardEuler.run, hr]⟩
    · intro fuel2 res hr2
      simp only [BackwardEuler.run] at hr2
      cases hdw : do_while (BackwardEuler.loop_body sin c1 c2 g1 g2 vm omega h)
          (fun s => decide (s.t_n < t_end)) fuel2 b with
      | none =>
        rw [hdw] at hr2
        cases hr2
      | some s2 =>
        rw [hdw] at hr2
        simp only [Option.some.injEq] at hr2
        have hc := hcount fuel2 s2 hdw
        simp only at hc
        have hlen : (res.out.length : Int) = s2.out.length + 1 := by
          rw [← hr2]
          simp
        obtain ⟨ha1, ha2⟩ := harith b.t_n hb
        refine ⟨by rw [hlen, hc], fun hne => ?_, fun heq => ?_⟩
        · rw [hlen, hc, ha1 hne]
          ring
        · rw [hlen, hc, ha2 heq]

/-- Witness for C14: with `h = 1/2`, `t_start = 0`, `t_end = 5/4` the
backward-Euler driver finishes having written `⌈5/2⌉ + 1` records. -/
theorem circuit_record_count_witness :
    ∃ fuel r, BackwardEuler.run (fun _ => (0 : ℚ)) 1 1 1 1 0 1 (1 / 2) (5 / 4) fuel
        BackwardEuler.init = some r
      ∧ (r.out.length : Int)
          = (BackwardEuler.init : BackwardEuler.State ℚ).out.length
            + ⌈((5 / 4 : ℚ) - (BackwardEuler.init : BackwardEuler.State ℚ).t_n) / (1 / 2)⌉ + 1 := by
  obtain ⟨⟨fuel, r, hr⟩, hall⟩ :=
    (circuit_record_count (fun _ => (0 : ℚ)) 1 1 1 1 1 1 0 1 (1 / 2) (5 / 4) (by norm_num)
      CircuitForwardEuler.init BackwardEuler.init
      (by norm_num [CircuitForwardEuler.init]) (by norm_num [BackwardEuler.init])).2
  exact ⟨fuel, r, hr, (hall fuel r hr).1⟩

namespace CircuitForwardEuler

variable {α : Type} [LinearOrderedField α]

/-- A finished loop is followed by the trailing record. -/
lemma fe_run_of_do_while (sin : α → α) (c1 c2 r1 r2 vm omega h t_end : α) (fuel : Nat)
    (s r : State α)
    (hr : do_while (loop_body sin c1 c2 r1 r2 vm omega h)
      (fun s => decide (s.t_n < t_end)) fuel s = some r) :
    run sin c1 c2 r1 r2 vm omega h t_end fuel s
      = some { r with out := r.out ++ [(r.t_n, r.v1_n, r.v2_n)] } := by
  rw [run, hr]

/-- With `h = 1`, start at `0` and horizon `2` the circuit forward-Euler driver
makes two passes and writes three records. -/
lemma fe_run_two_passes (sin : α → α) (c1 c2 r1 r2 vm omega : α) :
    ∃ r, run sin c1 c2 r1 r2 vm omega 1 2 2 init = some r ∧ r.out.length = 3 := by
  have htime := iterate_time (loop_body sin c1 c2 r1 r2 vm omega 1)
    (fun s => s.t_n) 1 (fun _ => rfl) init
  have hrun := do_while_iterate (loop_body sin c1 c2 r1 r2 vm omega 1)
    (fun s => decide (s.t_n < 2)) 1 init 2
    (fun j hj1 hj => by
      obtain rfl : j = 1 := by omega
      simp only [decide_eq_true_eq]
      rw [htime 1]
      norm_num [init])
    (by
      simp only [decide_eq_false_iff_not, not_lt]
      rw [htime 2]
      norm_num [init])
    (le_refl _)
  refine ⟨_, fe_run_of_do_while _ _ _ _ _ _ _ _ _ _ _ _ hrun, ?_⟩
  simp only [List.length_append, List.length_singleton, fe_iterate_out_length]
  rfl

end CircuitForwardEuler

namespace BackwardEuler

variable {α : Type} [LinearOrderedField α]

/-- A finished loop is followed by the trailing record. -/
lemma be_run_of_do_while (sin : α → α) (c1 c2 g1 g2 vm omega h t_end : α) (fuel : Nat)
    (s r : State α)
    (hr : do_while (loop_body sin c1 c2 g1 g2 vm omega h)
      (fun s => decide (s.t_n < t_end)) fuel s = some r) :
    run sin c1 c2 g1 g2 vm omega h t_end fuel s
      = some { r with out := r.out ++ [(r.t_n, r.v1_n, r.v2_n)] } := by
  rw [run, hr]

/-- With `h = 1`, start at `0` and horizon `2` the backward-Euler driver makes
two passes and writes three records. -/
lemma be_run_two_passes (sin : α → α) (c1 c2 g1 g2 vm omega : α) :
    ∃ r, run sin c1 c2 g1 g2 vm omega 1 2 2 init = some r ∧ r.out.length = 3 := by
  have htime := iterate_time (loop_body sin c1 c2 g1 g2 vm omega 1)
    (fun s => s.t_n) 1 (fun _ => rfl) init
  have hrun := do_while_iterate (loop_body sin c1 c2 g1 g2 vm omega 1)
    (fun s => decide (s.t_n < 2)) 1 init 2
    (fun j hj1 hj => by
      obtain rfl : j = 1 := by omega
      simp only [decide_eq_true_eq]
      rw [htime 1]
      norm_num [init])
    (by
      simp only [decide_eq_false_iff_not, not_lt]
      rw [htime 2]
      norm_num [init])
    (le_refl _)
  refine ⟨_, be_run_of_do_while _ _ _ _ _ _ _ _ _ _ _ _ hrun, ?_⟩
  simp only [List.length_append, List.length_singleton, be_iterate_out_length]
  rfl

end BackwardEuler

/-- C14, counterexample: with `h = 1`, `t_start = 0`, `t_end = 2` (all parameters
`1`; every time value is exact in binary64 as well) both circuit drivers make two
passes and write 3 records, whereas `⌊(t_end - t_start) / h⌋ + 2` is 4. -/
theorem circuit_record_count_divisible_span :
    (∃ r, BackwardEuler.run Real.sin 1 1 1 1 1 1 1 2 2 BackwardEuler.init = some r
        ∧ r.out.length = 3)
    ∧ (∃ r, CircuitForwardEuler.run Real.sin 1 1 1 1 1 1 1 2 2 CircuitForwardEuler.init
          = some r
        ∧ r.out.length = 3)
    ∧ ⌊((2 : ℝ) - 0) / 1⌋ + 2 = 4 := by
  refine ⟨BackwardEuler.be_run_two_passes Real.sin 1 1 1 1 1 1,
    CircuitForwardEuler.fe_run_two_passes Real.sin 1 1 1 1 1 1, ?_⟩
  have hq : ((2 : ℝ) - 0) / 1 = ((2 : Int) : ℝ) := by norm_num
  rw [hq, Int.floor_intCast]
  rfl

namespace ScalarForwardEuler

variable {α : Type} [LinearOrderedField α]

/-- Every record present after `j` passes was there at the start or is the state
at the entry of one of the passes `0, ..., j - 1`. -/
lemma scalar_iterate_out_mem (h : α) (s : State α) :
    ∀ (j : Nat) (rec : α × α), rec ∈ ((loop_body h)^[j] s).out →
      rec ∈ s.out ∨ ∃ i : Nat, i < j
        ∧ rec = (((loop_body h)^[i] s).t_n, ((loop_body h)^[i] s).x_n) := by
  intro j
  induction j with
  | zero =>
    intro rec hrec
    exact Or.inl hrec
  | succ j ih =>
    intro rec hrec
    rw [Function.iterate_succ_apply'] at hrec
    simp only [loop_body, List.mem_append, List.mem_singleton] at hrec
    rcases hrec with hold | hnew
    · rcases ih rec hold with h1 | ⟨i, hi, hrec2⟩
      · exact Or.inl h1
      · exact Or.inr ⟨i, Nat.lt_succ_of_lt hi, hrec2⟩
    · exact Or.inr ⟨j, Nat.lt_succ_self j, hnew⟩

end ScalarForwardEuler

/-- C13, the loops at constants that are exact in binary64: the scalar
forward-Euler loop with `h = 1`, horizon `2` and start `(0, -1)` completes two
steps, ends in the state `(2, 4)` and has written the two records `(0, -1)`,
`(1, -1)`; the trapezoidal loop with `h = 1`, horizon `2` and start `(0, 0)`
completes two steps and has written the two records `(0, 0)`, `(1, 0)`.  In both
a run of `N = 2` steps writes `N` records, and no record holds the final state at
`t = 2`. -/
theorem scalar_drivers_drop_final_record :
    ScalarForwardEuler.run (1 : ℚ) 2 2 { t_n := 0, x_n := -1, out := [] }
        = some { t_n := 2, x_n := 4, out := [(0, -1), (1, -1)] }
    ∧ Trapezoidal.main_loop (1 : ℚ) 2 10 (1 / 100000000) (1 / 10000000000) 0 2
          { t_n := 0, x_n := 0, iteration := 0, out := [] }
        = some { status := 0, error := none, out := [(0, 0), (1, 0)] } := by
  constructor
  · norm_num [ScalarForwardEuler.run, do_while, ScalarForwardEuler.loop_body,
      ScalarForwardEuler.df]
  · have h0 : Trapezoidal.fn_newtonRaphson (1 : ℚ) 0 0 10 (1 / 100000000)
        (1 / 10000000000) 0 = .ok 0 := by
      have hl := Trapezoidal.nr_loop_break (1 : ℚ) 0 (0 + 1) 0 (1 / 100000000)
        (1 / 10000000000) 9 { i := 0, x_nn := 0, f := 0 }
        (by norm_num [Trapezoidal.fn_f])
      exact Trapezoidal.fn_newtonRaphson_of_loop_ok (1 : ℚ) 0 0 (1 / 100000000)
        (1 / 10000000000) 0 10 _ hl (by norm_num [Trapezoidal.fn_f])
    have h1 : Trapezoidal.fn_newtonRaphson (1 : ℚ) (0 + 1) 0 10 (1 / 100000000)
        (1 / 10000000000) 0 = .ok 0 := by
      have hl := Trapezoidal.nr_loop_break (1 : ℚ) (0 + 1) (0 + 1 + 1) 0 (1 / 100000000)
        (1 / 10000000000) 9 { i := 0, x_nn := 0, f := 0 }
        (by norm_num [Trapezoidal.fn_f])
      exact Trapezoidal.fn_newtonRaphson_of_loop_ok (1 : ℚ) (0 + 1) 0 (1 / 100000000)
        (1 / 10000000000) 0 10 _ hl (by norm_num [Trapezoidal.fn_f])
    simp only [Trapezoidal.main_loop, h0, h1]
    norm_num

namespace Trapezoidal

variable {α : Type} [LinearOrderedField α]

/-- A failure of the loop is the failure of the call. -/
lemma fn_newtonRaphson_of_loop_error (h t_n x_n tolerance reallySmall f0 : α) (iter : Int)
    (e : SimError)
    (hloop : nr_loop h t_n (t_n + h) x_n tolerance reallySmall iter.toNat
      { i := 0, x_nn := x_n, f := f0 } = .error e) :
    fn_newtonRaphson h t_n x_n iter tolerance reallySmall f0 = .error e := by
  simp only [fn_newtonRaphson, hloop]

/-- One pass of the driver loop whose Newton solve fails: the record of the
current state is written and the program exits with status 1. -/
lemma main_loop_fail (h t_f tolerance reallySmall f0 : α) (iter : Int) (fuel : Nat)
    (s : State α) (e : SimError)
    (hfail : fn_newtonRaphson h s.t_n s.x_n iter tolerance reallySmall f0 = .error e) :
    main_loop h t_f iter tolerance reallySmall f0 (fuel + 1) s
      = some { status := 1, error := some e, out := s.out ++ [(s.t_n, s.x_n)] } := by
  simp only [main_loop, hfail]

/-- One pass of the driver loop whose Newton solve succeeds and after which the
time is still below the horizon: the loop goes on from the new state. -/
lemma main_loop_continue (h t_f tolerance reallySmall f0 : α) (iter : Int) (fuel : Nat)
    (s : State α) (x : α)
    (hok : fn_newtonRaphson h s.t_n s.x_n iter tolerance reallySmall f0 = .ok x)
    (hlt : s.t_n + h < t_f) :
    main_loop h t_f iter tolerance reallySmall f0 (fuel + 1) s
      = main_loop h t_f iter tolerance reallySmall f0 fuel
          { t_n := s.t_n + h, x_n := x, iteration := s.iteration + 1,
            out := s.out ++ [(s.t_n, s.x_n)] } := by
  simp only [main_loop, hok, hlt, if_true]

/-- C16: in the trapezoidal driver, when the Newton solves of steps `0, ..., k-1`
succeed (giving `x_1, ..., x_k`, the loop going on after each) and the solve of
step `k` fails, the run ends with status 1 and the error met, and the file holds
the earlier records followed by exactly the `k + 1` records
`(t_0, x_0), ..., (t_k, x_k)`, `t_j = t_0 + j h`. -/
theorem main_loop_abort_records (h t_f tolerance reallySmall f0 : α) (iter : Int)
    (k : Nat) (e : SimError) (s : State α) (xs : Nat → α) (fuel : Nat)
    (hx0 : xs 0 = s.x_n)
    (hok : ∀ j : Nat, j < k →
      fn_newtonRaphson h (s.t_n + (j : α) * h) (xs j) iter tolerance reallySmall f0
        = .ok (xs (j + 1)))
    (hcont : ∀ j : Nat, j < k → s.t_n + ((j + 1 : Nat) : α) * h < t_f)
    (hfail : fn_newtonRaphson h (s.t_n + (k : α) * h) (xs k) iter tolerance reallySmall f0
      = .error e)
    (hfuel : k < fuel) :
    main_loop h t_f iter tolerance reallySmall f0 fuel s
      = some { status := 1, error := some e,
               out := s.out ++ (List.range (k + 1)).map
                 (fun j : Nat => (s.t_n + (j : α) * h, xs j)) } := by
  induction k generalizing s xs fuel with
  | zero =>
    obtain ⟨f, rfl⟩ : ∃ f, fuel = f + 1 := ⟨fuel - 1, by omega⟩
    simp only [Nat.cast_zero, zero_mul, add_zero, hx0] at hfail
    rw [main_loop_fail h t_f tolerance reallySmall f0 iter f s e hfail]
    simp [List.range_succ, hx0]
  | succ k ih =>
    obtain ⟨f, rfl⟩ : ∃ f, fuel = f + 1 := ⟨fuel - 1, by omega⟩
    have h0 := hok 0 (Nat.succ_pos k)
    simp only [Nat.cast_zero, zero_mul, add_zero, hx0] at h0
    have hlt0 := hcont 0 (Nat.succ_pos k)
    simp only [zero_add, Nat.cast_one, one_mul] at hlt0
    rw [main_loop_continue h t_f tolerance reallySmall f0 iter f s (xs 1) h0 hlt0]
    have hshift : ∀ j : Nat, s.t_n + h + (j : α) * h = s.t_n + ((j + 1 : Nat) : α) * h := by
      intro j
      push_cast
      ring
    rw [ih { t_n := s.t_n + h, x_n := xs 1, iteration := s.iteration + 1,
             out := s.out ++ [(s.t_n, s.x_n)] } (fun j => xs (j + 1)) f rfl
      (fun j hj => by
        have := hok (j + 1) (by omega)
        simp only [hshift j]
        exact this)
      (fun j hj => by
        have := hcont (j + 1) (by omega)
        simp only [hshift (j + 1)]
        exact this)
      (by
        simp only [hshift k]
        exact hfail)
      (by omega)]
    have hlist : (List.range (k + 1 + 1)).map (fun j : Nat => (s.t_n + (j : α) * h, xs j))
        = (s.t_n, s.x_n) :: (List.range (k + 1)).map
            (fun j : Nat => (s.t_n + h + (j : α) * h, xs (j + 1))) := by
      rw [List.range_succ_eq_map, List.map_cons, List.map_map]
      simp only [Nat.cast_zero, zero_mul, add_zero, hx0]
      congr 1
      apply List.map_congr_left
      intro j _
      simp only [Function.comp_apply, hshift j]
    rw [hlist]
    simp

end Trapezoidal

namespace Trapezoidal

variable {α : Type} [LinearOrderedField α]

/-- With `h = 1`, tolerance `1/50` and `x_n = 1/20`: at `t_n = 0` the residual
`1/80` is within tolerance and `x_n` is returned at once; at `t_n = 1` the
residual `1/16` is out of tolerance and the derivative is `0`, so the call
fails. -/
lemma fn_newtonRaphson_two_steps (f0 : ℚ) :
    fn_newtonRaphson (1 : ℚ) 0 (1 / 20) 10 (1 / 50) (1 / 10000000000) f0 = .ok (1 / 20)
    ∧ fn_newtonRaphson (1 : ℚ) 1 (1 / 20) 10 (1 / 50) (1 / 10000000000) f0
        = .error SimError.degenerateDerivative := by
  constructor
  · have h1 := nr_loop_break (1 : ℚ) 0 (0 + 1) (1 / 20) (1 / 50) (1 / 10000000000) 9
      { i := 0, x_nn := 1 / 20, f := f0 } (by norm_num [fn_f, abs_le])
    exact fn_newtonRaphson_of_loop_ok (1 : ℚ) 0 (1 / 20) (1 / 50) (1 / 10000000000) f0 10 _ h1
      (by norm_num [fn_f, abs_le])
  · have h1 := nr_loop_abort (1 : ℚ) 1 (1 + 1) (1 / 20) (1 / 50) (1 / 10000000000) 9
      { i := 0, x_nn := 1 / 20, f := f0 } (by norm_num [fn_f, lt_abs])
      (by norm_num [fn_df])
    exact fn_newtonRaphson_of_loop_error (1 : ℚ) 1 (1 / 20) (1 / 50) (1 / 10000000000) f0 10 _ h1

/-- Witness for C16: with `h = 1`, `t_f = 5`, tolerance `1/50` and start
`(0, 1/20)`, step 0 succeeds, step 1 fails with the degenerate-derivative error,
and the file holds the two records `(0, 1/20)`, `(1, 1/20)`. -/
theorem main_loop_abort_records_witness :
    main_loop (1 : ℚ) 5 10 (1 / 50) (1 / 10000000000) 0 2
        { t_n := 0, x_n := 1 / 20, iteration := 0, out := [] }
      = some { status := 1, error := some SimError.degenerateDerivative,
               out := [(0, 1 / 20), (1, 1 / 20)] } := by
  have hw := main_loop_abort_records (1 : ℚ) 5 (1 / 50) (1 / 10000000000) 0 10 1
    SimError.degenerateDerivative { t_n := 0, x_n := 1 / 20, iteration := 0, out := [] }
    (fun _ => 1 / 20) 2 rfl
    (fun j hj => by
      obtain rfl : j = 0 := by omega
      simpa using (fn_newtonRaphson_two_steps 0).1)
    (fun j hj => by
      obtain rfl : j = 0 := by omega
      norm_num)
    (by simpa using (fn_newtonRaphson_two_steps 0).2)
    (by norm_num)
  simpa [List.range_succ] using hw

end Trapezoidal

namespace BackwardEuler

variable {α : Type} [LinearOrderedField α]

/-- The packed coefficient matrix the loop body hands to `fn_invert_2x2`. -/
lemma loop_body_a_vec (sin : α → α) (c1 c2 g1 g2 vm omega h : α) (s : State α) :
    (loop_body sin c1 c2 g1 g2 vm omega h s).a_vec 0 = 1 + ((h / c1) * (g1 + g2))
    ∧ (loop_body sin c1 c2 g1 g2 vm omega h s).a_vec 1 = -(h / c1) * g2
    ∧ (loop_body sin c1 c2 g1 g2 vm omega h s).a_vec 2 = -(h / c2) * g2
    ∧ (loop_body sin c1 c2 g1 g2 vm omega h s).a_vec 3 = 1 + ((h / c2) * g2) := by
  refine ⟨?_, ?_, ?_, ?_⟩ <;>
    simp [loop_body, for2, set2, idx, Function.update]

/-- The right-hand side the loop body builds. -/
lemma loop_body_b (sin : α → α) (c1 c2 g1 g2 vm omega h : α) (s : State α) :
    (loop_body sin c1 c2 g1 g2 vm omega h s).b 0
        = s.v1_n + ((h / c1) * g1 * (vm * sin (omega * (s.t_n + h))))
    ∧ (loop_body sin c1 c2 g1 g2 vm omega h s).b 1 = s.v2_n := by
  refine ⟨?_, ?_⟩ <;> simp [loop_body, Function.update]

/-- The new state is the product of the inverse written to `t_vec` with `b`. -/
lemma loop_body_state (sin : α → α) (c1 c2 g1 g2 vm omega h : α) (s : State α) :
    (loop_body sin c1 c2 g1 g2 vm omega h s).t_vec
        = fn_invert_2x2 (loop_body sin c1 c2 g1 g2 vm omega h s).a_vec s.t_vec
    ∧ (loop_body sin c1 c2 g1 g2 vm omega h s).o_vec
        = fn_multiply_2x1 (loop_body sin c1 c2 g1 g2 vm omega h s).t_vec
            (loop_body sin c1 c2 g1 g2 vm omega h s).b s.o_vec
    ∧ (loop_body sin c1 c2 g1 g2 vm omega h s).v1_n
        = (loop_body sin c1 c2 g1 g2 vm omega h s).o_vec 0
    ∧ (loop_body sin c1 c2 g1 g2 vm omega h s).v2_n
        = (loop_body sin c1 c2 g1 g2 vm omega h s).o_vec 1 :=
  ⟨rfl, rfl, rfl, rfl⟩

/-- The determinant of the coefficient matrix, expanded; it exceeds 1 for
positive step, capacitances and conductances. -/
lemma loop_body_det (sin : α → α) (c1 c2 g1 g2 vm omega h : α) (s : State α)
    (hh : 0 < h) (hc1 : 0 < c1) (hc2 : 0 < c2) (hg1 : 0 < g1) (hg2 : 0 < g2) :
    det (loop_body sin c1 c2 g1 g2 vm omega h s).a_vec
        = 1 + (h / c1) * (g1 + g2) + (h / c2) * g2 + h ^ 2 * g1 * g2 / (c1 * c2)
    ∧ 1 < det (loop_body sin c1 c2 g1 g2 vm omega h s).a_vec := by
  obtain ⟨a0, a1, a2, a3⟩ := loop_body_a_vec sin c1 c2 g1 g2 vm omega h s
  have hval : det (loop_body sin c1 c2 g1 g2 vm omega h s).a_vec
      = 1 + (h / c1) * (g1 + g2) + (h / c2) * g2 + h ^ 2 * g1 * g2 / (c1 * c2) := by
    simp only [det, a0, a1, a2, a3]
    field_simp
    ring
  refine ⟨hval, ?_⟩
  rw [hval]
  have p1 : 0 < (h / c1) * (g1 + g2) := mul_pos (div_pos hh hc1) (add_pos hg1 hg2)
  have p2 : 0 < (h / c2) * g2 := mul_pos (div_pos hh hc2) hg2
  have p3 : 0 < h ^ 2 * g1 * g2 / (c1 * c2) :=
    div_pos (mul_pos (mul_pos (pow_pos hh 2) hg1) hg2) (mul_pos hc1 hc2)
  linarith

/-- For a non-zero determinant the matrix computed by `fn_invert_2x2` is also a
right inverse: `M (M⁻¹ v) = v`. -/
lemma multiply_invert_right (M o : Fin 4 → α) (v k1 k2 : Fin 2 → α) (hdet : det M ≠ 0) :
    fn_multiply_2x1 M (fn_multiply_2x1 (fn_invert_2x2 M o) v k1) k2 = v := by
  obtain ⟨e0, e1, e2, e3⟩ := fn_invert_2x2_entries M o
  obtain ⟨m0, m1⟩ := fn_multiply_2x1_entries (fn_invert_2x2 M o) v k1
  obtain ⟨p0, p1⟩ :=
    fn_multiply_2x1_entries M (fn_multiply_2x1 (fn_invert_2x2 M o) v k1) k2
  funext r
  fin_cases r
  · show fn_multiply_2x1 M (fn_multiply_2x1 (fn_invert_2x2 M o) v k1) k2 0 = v 0
    rw [p0, m0, m1, e0, e1, e2, e3]
    field_simp
    simp only [det]
    ring
  · show fn_multiply_2x1 M (fn_multiply_2x1 (fn_invert_2x2 M o) v k1) k2 1 = v 1
    rw [p1, m0, m1, e0, e1, e2, e3]
    field_simp
    simp only [det]
    ring

/-- C19: for `h, c1, c2, g1, g2 > 0` the determinant that `fn_invert_2x2` computes
for the matrix packed by the loop body is
`1 + (h/c1)(g1+g2) + (h/c2) g2 + h² g1 g2 / (c1 c2)`, which exceeds 1: the four
quotients written to `t_vec` divide by a non-zero number. -/
theorem coefficient_matrix_never_singular (sin : α → α) (c1 c2 g1 g2 vm omega h : α)
    (s : State α)
    (hh : 0 < h) (hc1 : 0 < c1) (hc2 : 0 < c2) (hg1 : 0 < g1) (hg2 : 0 < g2) :
    det (loop_body sin c1 c2 g1 g2 vm omega h s).a_vec
        = 1 + (h / c1) * (g1 + g2) + (h / c2) * g2 + h ^ 2 * g1 * g2 / (c1 * c2)
    ∧ 1 < det (loop_body sin c1 c2 g1 g2 vm omega h s).a_vec
    ∧ det (loop_body sin c1 c2 g1 g2 vm omega h s).a_vec ≠ 0
    ∧ (loop_body sin c1 c2 g1 g2 vm omega h s).t_vec 0
        = (1 + ((h / c2) * g2)) / det (loop_body sin c1 c2 g1 g2 vm omega h s).a_vec
    ∧ (loop_body sin c1 c2 g1 g2 vm omega h s).t_vec 1
        = (-1 * (-(h / c1) * g2)) / det (loop_body sin c1 c2 g1 g2 vm omega h s).a_vec
    ∧ (loop_body sin c1 c2 g1 g2 vm omega h s).t_vec 2
        = (-1 * (-(h / c2) * g2)) / det (loop_body sin c1 c2 g1 g2 vm omega h s).a_vec
    ∧ (loop_body sin c1 c2 g1 g2 vm omega h s).t_vec 3
        = (1 + ((h / c1) * (g1 + g2)))
            / det (loop_body sin c1 c2 g1 g2 vm omega h s).a_vec := by
  obtain ⟨hval, hgt⟩ := loop_body_det sin c1 c2 g1 g2 vm omega h s hh hc1 hc2 hg1 hg2
  obtain ⟨a0, a1, a2, a3⟩ := loop_body_a_vec sin c1 c2 g1 g2 vm omega h s
  obtain ⟨ht, -, -, -⟩ := loop_body_state sin c1 c2 g1 g2 vm omega h s
  obtain ⟨e0, e1, e2, e3⟩ :=
    fn_invert_2x2_entries (loop_body sin c1 c2 g1 g2 vm omega h s).a_vec s.t_vec
  refine ⟨hval, hgt, ne_of_gt (lt_trans zero_lt_one hgt), ?_, ?_, ?_, ?_⟩
  · rw [ht, e0, a3]
  · rw [ht, e1, a1]
  · rw [ht, e2, a2]
  · rw [ht, e3, a0]

/-- Witness for C19: `h = c1 = c2 = g1 = g2 = 1` gives the matrix
`[[3, -1], [-1, 2]]` with determinant `5`. -/
theorem coefficient_matrix_never_singular_witness :
    det (loop_body (fun _ => (0 : ℚ)) 1 1 1 1 1 1 1 init).a_vec = 5 := by
  have hw := (coefficient_matrix_never_singular (fun _ => (0 : ℚ)) 1 1 1 1 1 1 1 init
    (by norm_num) (by norm_num) (by norm_num) (by norm_num) (by norm_num)).1
  rw [hw]
  norm_num

end BackwardEuler

/-- A finished `do`-`while` loop ends in the state after some number `j ≥ 1` of
passes. -/
lemma do_while_some_iterate {σ : Type} (body : σ → σ) (cond : σ → Bool) :
    ∀ (fuel : Nat) (s r : σ), do_while body cond fuel s = some r →
      ∃ j : Nat, 1 ≤ j ∧ r = body^[j] s := by
  intro fuel
  induction fuel with
  | zero =>
    intro s r hr
    simp only [do_while] at hr
    cases hr
  | succ f ih =>
    intro s r hr
    simp only [do_while] at hr
    by_cases hc : cond (body s) = true
    · rw [if_pos hc] at hr
      obtain ⟨j, -, hj⟩ := ih (body s) r hr
      exact ⟨j + 1, by omega, by rw [hj, Function.iterate_succ_apply]⟩
    · rw [if_neg hc] at hr
      simp only [Option.some.injEq] at hr
      exact ⟨1, le_refl 1, by rw [← hr]; rfl⟩

namespace BackwardEuler

variable {α : Type} [LinearOrderedField α]

/-- Every record present after `j` passes was there at the start or is the state
at the entry of one of the passes `0, ..., j - 1`. -/
lemma be_iterate_out_mem (sin : α → α) (c1 c2 g1 g2 vm omega h : α) (s : State α) :
    ∀ (j : Nat) (rec : α × α × α),
      rec ∈ ((loop_body sin c1 c2 g1 g2 vm omega h)^[j] s).out →
      rec ∈ s.out ∨ ∃ i : Nat, i < j
        ∧ rec = (((loop_body sin c1 c2 g1 g2 vm omega h)^[i] s).t_n,
                 ((loop_body sin c1 c2 g1 g2 vm omega h)^[i] s).v1_n,
                 ((loop_body sin c1 c2 g1 g2 vm omega h)^[i] s).v2_n) := by
  intro j
  induction j with
  | zero =>
    intro rec hrec
    exact Or.inl hrec
  | succ j ih =>
    intro rec hrec
    rw [Function.iterate_succ_apply'] at hrec
    simp only [loop_body, List.mem_append, List.mem_singleton] at hrec
    rcases hrec with hold | hnew
    · rcases ih rec hold with h1 | ⟨i, hi, hrec2⟩
      · exact Or.inl h1
      · exact Or.inr ⟨i, Nat.lt_succ_of_lt hi, hrec2⟩
    · exact Or.inr ⟨j, Nat.lt_succ_self j, hnew⟩

/-- One pass of the body from zero voltages with zero source amplitude gives zero
voltages. -/
lemma loop_body_zero (sin : α → α) (c1 c2 g1 g2 omega h : α) (s : State α)
    (h1 : s.v1_n = 0) (h2 : s.v2_n = 0) :
    (loop_body sin c1 c2 g1 g2 0 omega h s).v1_n = 0
    ∧ (loop_body sin c1 c2 g1 g2 0 omega h s).v2_n = 0 := by
  obtain ⟨b0, b1⟩ := loop_body_b sin c1 c2 g1 g2 0 omega h s
  obtain ⟨-, ho, hv1, hv2⟩ := loop_body_state sin c1 c2 g1 g2 0 omega h s
  obtain ⟨m0, m1⟩ := fn_multiply_2x1_entries
    (loop_body sin c1 c2 g1 g2 0 omega h s).t_vec
    (loop_body sin c1 c2 g1 g2 0 omega h s).b s.o_vec
  rw [h1] at b0
  rw [h2] at b1
  simp only [zero_mul, mul_zero, add_zero] at b0
  constructor
  · rw [hv1, ho, m0, b0, b1]
    simp
  · rw [hv2, ho, m1, b0, b1]
    simp

/-- C11: for `h, c1, c2, g1, g2 > 0`, from `v1_n = v2_n = 0` with the source
amplitude `vm = 0` one pass of the backward-Euler body gives `(0, 0)`; hence the
state after any number of passes is `(0, 0)`, and every record a run writes
beyond those already present has both voltages `0`. -/
theorem zero_state_is_fixed_point (sin : α → α) (c1 c2 g1 g2 omega h t_end : α)
    (s : State α)
    (_hh : 0 < h) (_hc1 : 0 < c1) (_hc2 : 0 < c2) (_hg1 : 0 < g1) (_hg2 : 0 < g2)
    (h1 : s.v1_n = 0) (h2 : s.v2_n = 0) :
    ((loop_body sin c1 c2 g1 g2 0 omega h s).v1_n = 0
      ∧ (loop_body sin c1 c2 g1 g2 0 omega h s).v2_n = 0)
    ∧ (∀ j : Nat, ((loop_body sin c1 c2 g1 g2 0 omega h)^[j] s).v1_n = 0
        ∧ ((loop_body sin c1 c2 g1 g2 0 omega h)^[j] s).v2_n = 0)
    ∧ (∀ (fuel : Nat) (r : State α), run sin c1 c2 g1 g2 0 omega h t_end fuel s = some r →
        (r.v1_n = 0 ∧ r.v2_n = 0)
        ∧ ∀ rec ∈ r.out, rec ∈ s.out ∨ (rec.2.1 = 0 ∧ rec.2.2 = 0)) := by
  have hiter : ∀ j : Nat, ((loop_body sin c1 c2 g1 g2 0 omega h)^[j] s).v1_n = 0
      ∧ ((loop_body sin c1 c2 g1 g2 0 omega h)^[j] s).v2_n = 0 := by
    intro j
    induction j with
    | zero => exact ⟨h1, h2⟩
    | succ j ih =>
      rw [Function.iterate_succ_apply']
      exact loop_body_zero sin c1 c2 g1 g2 omega h _ ih.1 ih.2
  refine ⟨loop_body_zero sin c1 c2 g1 g2 omega h s h1 h2, hiter, ?_⟩
  intro fuel r hr
  simp only [run] at hr
  cases hdw : do_while (loop_body sin c1 c2 g1 g2 0 omega h)
      (fun s => decide (s.t_n < t_end)) fuel s with
  | none =>
    rw [hdw] at hr
    cases hr
  | some q =>
    rw [hdw] at hr
    simp only [Option.some.injEq] at hr
    obtain ⟨j, -, hj⟩ := do_while_some_iterate _ _ fuel s q hdw
    have hq := hiter j
    rw [← hj] at hq
    subst hr
    refine ⟨hq, ?_⟩
    intro rec hrec
    simp only [List.mem_append, List.mem_singleton] at hrec
    rcases hrec with hold | hnew
    · rw [hj] at hold
      rcases be_iterate_out_mem sin c1 c2 g1 g2 0 omega h s j rec hold with hs | ⟨i, -, hi⟩
      · exact Or.inl hs
      · right
        rw [hi]
        exact hiter i
    · right
      rw [hnew]
      exact hq

/-- Witness for C11: with all parameters `1` and zero amplitude, one pass from the
initial state of `main` leaves the voltages at `(0, 0)`. -/
theorem zero_state_is_fixed_point_witness :
    (loop_body (fun _ => (1 : ℚ)) 1 1 1 1 0 1 1 init).v1_n = 0
    ∧ (loop_body (fun _ => (1 : ℚ)) 1 1 1 1 0 1 1 init).v2_n = 0 :=
  (zero_state_is_fixed_point (fun _ => (1 : ℚ)) 1 1 1 1 1 1 3 init
    (by norm_num) (by norm_num) (by norm_num) (by norm_num) (by norm_num) rfl rfl).1

/-- C17: for `h, c1, c2, r1, r2 > 0` and `g1 = 1/r1`, `g2 = 1/r2`, the state
`(v1', v2')` left by one pass of the backward-Euler body solves the system the
body builds, `A (v1', v2') = b`; equivalently
`v1' = v1_n + (h/c1) (g1 (vs_nn - v1') + g2 (v2' - v1'))` and
`v2' = v2_n + (h/c2) g2 (v1' - v2')`, with `vs_nn = vm sin (omega (t_n + h))`. -/
theorem backward_euler_step_solves_system (sin : α → α) (c1 c2 r1 r2 vm omega h : α)
    (s : State α)
    (hh : 0 < h) (hc1 : 0 < c1) (hc2 : 0 < c2) (hr1 : 0 < r1) (hr2 : 0 < r2) :
    (∀ k : Fin 2 → α,
        fn_multiply_2x1 (loop_body sin c1 c2 (1 / r1) (1 / r2) vm omega h s).a_vec
          (fun r => if r = 0 then (loop_body sin c1 c2 (1 / r1) (1 / r2) vm omega h s).v1_n
            else (loop_body sin c1 c2 (1 / r1) (1 / r2) vm omega h s).v2_n) k
          = (loop_body sin c1 c2 (1 / r1) (1 / r2) vm omega h s).b)
    ∧ (loop_body sin c1 c2 (1 / r1) (1 / r2) vm omega h s).vs_nn
        = vm * sin (omega * (s.t_n + h))
    ∧ (loop_body sin c1 c2 (1 / r1) (1 / r2) vm omega h s).v1_n
        = s.v1_n + (h / c1) *
            ((1 / r1) * ((loop_body sin c1 c2 (1 / r1) (1 / r2) vm omega h s).vs_nn
                - (loop_body sin c1 c2 (1 / r1) (1 / r2) vm omega h s).v1_n)
              + (1 / r2) * ((loop_body sin c1 c2 (1 / r1) (1 / r2) vm omega h s).v2_n
                - (loop_body sin c1 c2 (1 / r1) (1 / r2) vm omega h s).v1_n))
    ∧ (loop_body sin c1 c2 (1 / r1) (1 / r2) vm omega h s).v2_n
        = s.v2_n + (h / c2) * (1 / r2) *
            ((loop_body sin c1 c2 (1 / r1) (1 / r2) vm omega h s).v1_n
              - (loop_body sin c1 c2 (1 / r1) (1 / r2) vm omega h s).v2_n) := by
  have hg1 : 0 < 1 / r1 := one_div_pos.mpr hr1
  have hg2 : 0 < 1 / r2 := one_div_pos.mpr hr2
  obtain ⟨-, hgt⟩ := loop_body_det sin c1 c2 (1 / r1) (1 / r2) vm omega h s hh hc1 hc2 hg1 hg2
  have hdet : det (loop_body sin c1 c2 (1 / r1) (1 / r2) vm omega h s).a_vec ≠ 0 :=
    ne_of_gt (lt_trans zero_lt_one hgt)
  obtain ⟨a0, a1, a2, a3⟩ := loop_body_a_vec sin c1 c2 (1 / r1) (1 / r2) vm omega h s
  obtain ⟨b0, b1⟩ := loop_body_b sin c1 c2 (1 / r1) (1 / r2) vm omega h s
  obtain ⟨ht, ho, hv1, hv2⟩ := loop_body_state sin c1 c2 (1 / r1) (1 / r2) vm omega h s
  have hsolve : ∀ k : Fin 2 → α,
      fn_multiply_2x1 (loop_body sin c1 c2 (1 / r1) (1 / r2) vm omega h s).a_vec
        (loop_body sin c1 c2 (1 / r1) (1 / r2) vm omega h s).o_vec k
        = (loop_body sin c1 c2 (1 / r1) (1 / r2) vm omega h s).b := by
    intro k
    rw [ho, ht]
    exact multiply_invert_right _ s.t_vec _ s.o_vec k hdet
  have hvec : (fun r : Fin 2 =>
      if r = 0 then (loop_body sin c1 c2 (1 / r1) (1 / r2) vm omega h s).v1_n
        else (loop_body sin c1 c2 (1 / r1) (1 / r2) vm omega h s).v2_n)
      = (loop_body sin c1 c2 (1 / r1) (1 / r2) vm omega h s).o_vec := by
    funext r
    fin_cases r
    · exact hv1
    · exact hv2
  have hrow := hsolve (fun _ => 0)
  obtain ⟨m0, m1⟩ := fn_multiply_2x1_entries
    (loop_body sin c1 c2 (1 / r1) (1 / r2) vm omega h s).a_vec
    (loop_body sin c1 c2 (1 / r1) (1 / r2) vm omega h s).o_vec (fun _ => 0)
  have e0 := congrFun hrow 0
  have e1 := congrFun hrow 1
  rw [m0, a0, a1, b0, ← hv1, ← hv2] at e0
  rw [m1, a2, a3, b1, ← hv1, ← hv2] at e1
  refine ⟨fun k => by rw [hvec]; exact hsolve k, rfl, ?_, ?_⟩
  · have hvs : (loop_body sin c1 c2 (1 / r1) (1 / r2) vm omega h s).vs_nn
        = vm * sin (omega * (s.t_n + h)) := rfl
    rw [hvs]
    linear_combination e0
  · linear_combination e1

/-- Witness for C17: all parameters `1`, source value `1`, from the zero state:
the new voltages satisfy the two implicit equations. -/
theorem backward_euler_step_solves_system_witness :
    (loop_body (fun _ => (1 : ℚ)) 1 1 (1 / 1) (1 / 1) 1 1 1 init).v1_n
        = (init : State ℚ).v1_n + (1 / 1) *
            ((1 / 1) * ((loop_body (fun _ => (1 : ℚ)) 1 1 (1 / 1) (1 / 1) 1 1 1 init).vs_nn
                - (loop_body (fun _ => (1 : ℚ)) 1 1 (1 / 1) (1 / 1) 1 1 1 init).v1_n)
              + (1 / 1) * ((loop_body (fun _ => (1 : ℚ)) 1 1 (1 / 1) (1 / 1) 1 1 1 init).v2_n
                - (loop_body (fun _ => (1 : ℚ)) 1 1 (1 / 1) (1 / 1) 1 1 1 init).v1_n))
    ∧ (loop_body (fun _ => (1 : ℚ)) 1 1 (1 / 1) (1 / 1) 1 1 1 init).v2_n
        = (init : State ℚ).v2_n + (1 / 1) * (1 / 1) *
            ((loop_body (fun _ => (1 : ℚ)) 1 1 (1 / 1) (1 / 1) 1 1 1 init).v1_n
              - (loop_body (fun _ => (1 : ℚ)) 1 1 (1 / 1) (1 / 1) 1 1 1 init).v2_n) :=
  (backward_euler_step_solves_system (fun _ => (1 : ℚ)) 1 1 1 1 1 1 1 init
    (by norm_num) (by norm_num) (by norm_num) (by norm_num) (by norm_num)).2.2

end BackwardEuler

namespace BackwardEuler

variable {α : Type} [LinearOrderedField α]

/-- C18: `fn_multiply_2x1` writes the product of the row-major packed matrix `i`
with the vector `j`: `k[r] = i[2r] j[0] + i[2r+1] j[1]` for `r = 0, 1`, whatever
the buffer `k` held before, and the result is linear in `j`. -/
theorem fn_multiply_2x1_standard_product (i : Fin 4 → α) (j k : Fin 2 → α) :
    (fn_multiply_2x1 i j k 0 = i 0 * j 0 + i 1 * j 1
      ∧ fn_multiply_2x1 i j k 1 = i 2 * j 0 + i 3 * j 1)
    ∧ (∀ k2 : Fin 2 → α, fn_multiply_2x1 i j k2 = fn_multiply_2x1 i j k)
    ∧ (∀ (a b : α) (j1 j2 k1 k2 : Fin 2 → α),
        fn_multiply_2x1 i (fun r => a * j1 r + b * j2 r) k
          = fun r => a * fn_multiply_2x1 i j1 k1 r + b * fn_multiply_2x1 i j2 k2 r) := by
  refine ⟨fn_multiply_2x1_entries i j k, ?_, ?_⟩
  · intro k2
    obtain ⟨p0, p1⟩ := fn_multiply_2x1_entries i j k
    obtain ⟨q0, q1⟩ := fn_multiply_2x1_entries i j k2
    funext r
    fin_cases r
    · exact q0.trans p0.symm
    · exact q1.trans p1.symm
  · intro a b j1 j2 k1 k2
    obtain ⟨p0, p1⟩ := fn_multiply_2x1_entries i (fun r => a * j1 r + b * j2 r) k
    obtain ⟨q0, q1⟩ := fn_multiply_2x1_entries i j1 k1
    obtain ⟨r0, r1⟩ := fn_multiply_2x1_entries i j2 k2
    funext r
    fin_cases r
    · show fn_multiply_2x1 i (fun r => a * j1 r + b * j2 r) k 0
        = a * fn_multiply_2x1 i j1 k1 0 + b * fn_multiply_2x1 i j2 k2 0
      rw [p0, q0, r0]
      ring
    · show fn_multiply_2x1 i (fun r => a * j1 r + b * j2 r) k 1
        = a * fn_multiply_2x1 i j1 k1 1 + b * fn_multiply_2x1 i j2 k2 1
      rw [p1, q1, r1]
      ring

end BackwardEuler

namespace Trapezoidal

variable {α : Type} [LinearOrderedField α]

/-- One Newton step on the residual `a x² - 2 x + c` with `a ≥ 0`, `c ≤ 0`, taken
from a point `x ≤ 0` where the residual is non-negative: the derivative is at most
`-2`, the step moves right, stays at or below `0`, and the residual stays
non-negative. -/
lemma newton_quadratic_step (a c x : α) (ha : 0 ≤ a) (hc : c ≤ 0) (hx : x ≤ 0)
    (hF : 0 ≤ a * x ^ 2 - 2 * x + c) :
    2 * a * x - 2 ≤ -2
    ∧ x ≤ x - (a * x ^ 2 - 2 * x + c) / (2 * a * x - 2)
    ∧ x - (a * x ^ 2 - 2 * x + c) / (2 * a * x - 2) ≤ 0
    ∧ 0 ≤ a * (x - (a * x ^ 2 - 2 * x + c) / (2 * a * x - 2)) ^ 2
          - 2 * (x - (a * x ^ 2 - 2 * x + c) / (2 * a * x - 2)) + c := by
  have hax : a * x ≤ 0 := mul_nonpos_of_nonneg_of_nonpos ha hx
  have hD : 2 * a * x - 2 ≤ -2 := by linarith
  have hDneg : 2 * a * x - 2 < 0 := by linarith
  have hDne : 2 * a * x - 2 ≠ 0 := ne_of_lt hDneg
  have hq : (a * x ^ 2 - 2 * x + c) / (2 * a * x - 2) ≤ 0 :=
    div_nonpos_iff.mpr (Or.inl ⟨hF, le_of_lt hDneg⟩)
  have hnext : x - (a * x ^ 2 - 2 * x + c) / (2 * a * x - 2)
      = (a * x ^ 2 - c) / (2 * a * x - 2) := by
    field_simp
    ring
  have hnum : 0 ≤ a * x ^ 2 - c := by
    have := mul_nonneg ha (sq_nonneg x)
    linarith
  have hres : a * (x - (a * x ^ 2 - 2 * x + c) / (2 * a * x - 2)) ^ 2
        - 2 * (x - (a * x ^ 2 - 2 * x + c) / (2 * a * x - 2)) + c
      = a * ((a * x ^ 2 - 2 * x + c) / (2 * a * x - 2)) ^ 2 := by
    field_simp
    ring
  refine ⟨hD, by linarith, ?_, ?_⟩
  · rw [hnext]
    exact div_nonpos_iff.mpr (Or.inl ⟨hnum, le_of_lt hDneg⟩)
  · rw [hres]
    exact mul_nonneg ha (sq_nonneg _)

/-- The residual and its derivative as a quadratic in `x_nn`. -/
lemma fn_f_quadratic (h t_n x_n x : α) :
    fn_f h t_n (t_n + h) x_n x
        = (5 * h * (t_n + h) ^ 2) * x ^ 2 - 2 * x + x_n * (5 * h * t_n ^ 2 * x_n + 2)
    ∧ fn_df h (t_n + h) x = 2 * (5 * h * (t_n + h) ^ 2) * x - 2 := by
  constructor
  · simp only [fn_f]
    ring
  · simp only [fn_df]
    ring

/-- The iterate held by the loop is the Newton iterate numbered by its counter. -/
lemma nr_loop_state_iterate (h t_n x_n tolerance reallySmall : α) :
    ∀ (n i : Nat) (f : α) (s : NRState α),
      nr_loop h t_n (t_n + h) x_n tolerance reallySmall n
          { i := i, x_nn := newtonIterate h t_n x_n i, f := f } = .ok s →
      s.x_nn = newtonIterate h t_n x_n s.i := by
  intro n
  induction n with
  | zero =>
    intro i f s hs
    simp only [nr_loop, Except.ok.injEq] at hs
    rw [← hs]
  | succ n ih =>
    intro i f s hs
    by_cases hf : |fn_f h t_n (t_n + h) x_n (newtonIterate h t_n x_n i)| ≤ tolerance
    · rw [nr_loop_break h t_n (t_n + h) x_n tolerance reallySmall n
        { i := i, x_nn := newtonIterate h t_n x_n i, f := f } hf] at hs
      simp only [Except.ok.injEq] at hs
      rw [← hs]
    · have hf2 := not_le.mp hf
      by_cases hd : |fn_df h (t_n + h) (newtonIterate h t_n x_n i)| < reallySmall
      · rw [nr_loop_abort h t_n (t_n + h) x_n tolerance reallySmall n
          { i := i, x_nn := newtonIterate h t_n x_n i, f := f } hf2 hd] at hs
        cases hs
      · rw [nr_loop_step h t_n (t_n + h) x_n tolerance reallySmall n
          { i := i, x_nn := newtonIterate h t_n x_n i, f := f } hf2 hd] at hs
        exact ih (i + 1) _ s hs

/-- Under the sign conditions of C20 every Newton iterate lies in `[x_n, 0]`, has
a non-negative residual and a derivative at most `-2`, and the next iterate is
not smaller. -/
lemma newtonIterate_bounds (h t_n x_n : α) (hh : 0 < h) (hx : x_n ≤ 0)
    (hc : 0 ≤ 5 * h * t_n ^ 2 * x_n + 2) :
    ∀ k : Nat, x_n ≤ newtonIterate h t_n x_n k ∧ newtonIterate h t_n x_n k ≤ 0
      ∧ 0 ≤ fn_f h t_n (t_n + h) x_n (newtonIterate h t_n x_n k)
      ∧ fn_df h (t_n + h) (newtonIterate h t_n x_n k) ≤ -2
      ∧ newtonIterate h t_n x_n k ≤ newtonIterate h t_n x_n (k + 1) := by
  have ha : 0 ≤ 5 * h * (t_n + h) ^ 2 :=
    mul_nonneg (mul_nonneg (by norm_num) (le_of_lt hh)) (sq_nonneg _)
  have hc2 : x_n * (5 * h * t_n ^ 2 * x_n + 2) ≤ 0 :=
    mul_nonpos_of_nonpos_of_nonneg hx hc
  have hinv : ∀ k : Nat, x_n ≤ newtonIterate h t_n x_n k ∧ newtonIterate h t_n x_n k ≤ 0
      ∧ 0 ≤ fn_f h t_n (t_n + h) x_n (newtonIterate h t_n x_n k) := by
    intro k
    induction k with
    | zero =>
      refine ⟨le_refl _, hx, ?_⟩
      show 0 ≤ fn_f h t_n (t_n + h) x_n x_n
      rw [(fn_f_quadratic h t_n x_n x_n).1]
      have h1 : 0 ≤ (5 * h * (t_n + h) ^ 2) * x_n ^ 2 := mul_nonneg ha (sq_nonneg _)
      have h2 : 0 ≤ (5 * h * t_n ^ 2) * x_n ^ 2 :=
        mul_nonneg (mul_nonneg (mul_nonneg (by norm_num) (le_of_lt hh)) (sq_nonneg _))
          (sq_nonneg _)
      nlinarith
    | succ k ih =>
      obtain ⟨h1, h2, h3⟩ := ih
      have hF := h3
      rw [(fn_f_quadratic h t_n x_n _).1] at hF
      obtain ⟨-, s1, s2, s3⟩ := newton_quadratic_step (5 * h * (t_n + h) ^ 2)
        (x_n * (5 * h * t_n ^ 2 * x_n + 2)) (newtonIterate h t_n x_n k) ha hc2 h2 hF
      have hnext : newtonIterate h t_n x_n (k + 1)
          = newtonIterate h t_n x_n k
            - ((5 * h * (t_n + h) ^ 2) * newtonIterate h t_n x_n k ^ 2
                - 2 * newtonIterate h t_n x_n k + x_n * (5 * h * t_n ^ 2 * x_n + 2))
              / (2 * (5 * h * (t_n + h) ^ 2) * newtonIterate h t_n x_n k - 2) := by
        show newtonIterate h t_n x_n k
            - fn_f h t_n (t_n + h) x_n (newtonIterate h t_n x_n k)
              / fn_df h (t_n + h) (newtonIterate h t_n x_n k) = _
        rw [(fn_f_quadratic h t_n x_n _).1, (fn_f_quadratic h t_n x_n _).2]
      refine ⟨?_, ?_, ?_⟩
      · rw [hnext]
        exact le_trans h1 s1
      · rw [hnext]
        exact s2
      · rw [(fn_f_quadratic h t_n x_n _).1, hnext]
        exact s3
  intro k
  obtain ⟨h1, h2, h3⟩ := hinv k
  refine ⟨h1, h2, h3, ?_, ?_⟩
  · rw [(fn_f_quadratic h t_n x_n _).2]
    have := mul_nonpos_of_nonneg_of_nonpos ha h2
    linarith
  · have hF := h3
    rw [(fn_f_quadratic h t_n x_n _).1] at hF
    obtain ⟨-, s1, -, -⟩ := newton_quadratic_step (5 * h * (t_n + h) ^ 2)
      (x_n * (5 * h * t_n ^ 2 * x_n + 2)) (newtonIterate h t_n x_n k) ha hc2 h2 hF
    show newtonIterate h t_n x_n k ≤ newtonIterate h t_n x_n k
        - fn_f h t_n (t_n + h) x_n (newtonIterate h t_n x_n k)
          / fn_df h (t_n + h) (newtonIterate h t_n x_n k)
    rw [(fn_f_quadratic h t_n x_n _).1, (fn_f_quadratic h t_n x_n _).2]
    exact s1

end Trapezoidal

namespace Trapezoidal

variable {α : Type} [LinearOrderedField α]

/-- C20: for `h > 0`, `x_n ≤ 0` with `5 h t_n² x_n + 2 ≥ 0`, `tolerance ≥ 0`,
`reallySmall ≤ 2` and `iter ≥ 1`: every Newton iterate lies in `[x_n, 0]`, the
iterates are non-decreasing and `fn_df ≤ -2` at each of them, so the test
`|df| < reallySmall` never fires; the iterate held by the loop is always one of
them; the call never fails with the degenerate-derivative error, and a returned
value lies in `[x_n, 0]`. -/
theorem newton_iterates_stay_in_range (h t_n x_n tolerance reallySmall f0 : α)
    (iter : Int) (hh : 0 < h) (hx : x_n ≤ 0) (hc : 0 ≤ 5 * h * t_n ^ 2 * x_n + 2)
    (_htol : 0 ≤ tolerance) (hsm : reallySmall ≤ 2) (hiter : 1 ≤ iter) :
    (∀ k : Nat, x_n ≤ newtonIterate h t_n x_n k ∧ newtonIterate h t_n x_n k ≤ 0
        ∧ newtonIterate h t_n x_n k ≤ newtonIterate h t_n x_n (k + 1)
        ∧ fn_df h (t_n + h) (newtonIterate h t_n x_n k) ≤ -2
        ∧ ¬ |fn_df h (t_n + h) (newtonIterate h t_n x_n k)| < reallySmall)
    ∧ (∀ (n : Nat) (s : NRState α),
        nr_loop h t_n (t_n + h) x_n tolerance reallySmall n
            { i := 0, x_nn := x_n, f := f0 } = .ok s →
        s.x_nn = newtonIterate h t_n x_n s.i ∧ x_n ≤ s.x_nn ∧ s.x_nn ≤ 0)
    ∧ fn_newtonRaphson h t_n x_n iter tolerance reallySmall f0
        ≠ .error SimError.degenerateDerivative
    ∧ (∀ r : α, fn_newtonRaphson h t_n x_n iter tolerance reallySmall f0 = .ok r →
        x_n ≤ r ∧ r ≤ 0) := by
  have hb := newtonIterate_bounds h t_n x_n hh hx hc
  have hnot : ∀ k : Nat,
      ¬ |fn_df h (t_n + h) (newtonIterate h t_n x_n k)| < reallySmall := by
    intro k hlt
    obtain ⟨-, -, -, hd, -⟩ := hb k
    have h1 : -fn_df h (t_n + h) (newtonIterate h t_n x_n k)
        ≤ |fn_df h (t_n + h) (newtonIterate h t_n x_n k)| := neg_le_abs _
    linarith
  refine ⟨fun k => ?_, ?_, ?_, ?_⟩
  · obtain ⟨h1, h2, -, h4, h5⟩ := hb k
    exact ⟨h1, h2, h5, h4, hnot k⟩
  · intro n s hs
    have hst := nr_loop_state_iterate h t_n x_n tolerance reallySmall n 0 f0 s hs
    obtain ⟨h1, h2, -, -, -⟩ := hb s.i
    exact ⟨hst, by rw [hst]; exact h1, by rw [hst]; exact h2⟩
  · intro hR
    rcases fn_newtonRaphson_cases h t_n x_n tolerance reallySmall f0 iter hiter with
      ⟨k, -, -, -, -, hok⟩ | ⟨k, -, -, -, hd, -⟩ | ⟨-, hnc⟩
    · rw [hok] at hR
      cases hR
    · exact hnot k hd
    · rw [hnc] at hR
      cases hR
  · intro r hr
    rcases fn_newtonRaphson_cases h t_n x_n tolerance reallySmall f0 iter hiter with
      ⟨k, -, -, -, -, hok⟩ | ⟨k, -, -, -, hd, -⟩ | ⟨-, hnc⟩
    · rw [hok] at hr
      simp only [Except.ok.injEq] at hr
      obtain ⟨h1, h2, -, -, -⟩ := hb k
      rw [← hr]
      exact ⟨h1, h2⟩
    · exact absurd hd (hnot k)
    · rw [hnc] at hr
      cases hr

/-- Witness for C20: the first step of the trapezoidal driver (`h = 0.01`,
`t_n = 0`, `x_n = -1`) returns `-400001/400002`, which lies in `[-1, 0]`. -/
theorem newton_iterates_stay_in_range_witness :
    (-1 : ℚ) ≤ -400001 / 400002 ∧ (-400001 / 400002 : ℚ) ≤ 0 :=
  (newton_iterates_stay_in_range (1 / 100 : ℚ) 0 (-1) (1 / 100000000) (1 / 10000000000) 0 10
    (by norm_num) (by norm_num) (by norm_num) (by norm_num) (by norm_num)
    (by norm_num)).2.2.2 (-400001 / 400002) (fn_newtonRaphson_first_step 0)

end Trapezoidal

namespace ScalarForwardEuler

variable {α : Type} [LinearOrderedField α]

/-- Whatever the step and the horizon, a finished run of the scalar loop has made
some number `N ≥ 1` of passes and has written exactly `N` records, each the state
at the entry of a pass; the state left by the last pass is in none of them unless
it was there before or equals an earlier state. -/
lemma run_records_eq_passes (h t_f : α) (fuel : Nat) (s r : State α)
    (hr : run h t_f fuel s = some r) :
    ∃ N : Nat, 1 ≤ N ∧ r = (loop_body h)^[N] s
      ∧ r.out.length = s.out.length + N
      ∧ ∀ rec ∈ r.out, rec ∈ s.out ∨ ∃ i : Nat, i < N
          ∧ rec = (((loop_body h)^[i] s).t_n, ((loop_body h)^[i] s).x_n) := by
  obtain ⟨N, hN, hrN⟩ := do_while_some_iterate _ _ fuel s r hr
  refine ⟨N, hN, hrN, ?_, ?_⟩
  · rw [hrN]
    exact (iterate_out h s N).1
  · intro rec hrec
    rw [hrN] at hrec
    exact scalar_iterate_out_mem h s N rec hrec

end ScalarForwardEuler
